import Mathlib

/-!
# Verification of the link-scribe crawl/verification engine

Shallow embedding of `src/services/linkChecker.ts`: the link extractor
(`extractLinks`), the single-link verifier (`checkSingleLink`), the batch
scheduler (`checkLinksInBatches`) and the site crawler (`checkLinks`).

Network effects are modelled by an environment of oracles (page fetches and
per-request HTTP outcomes keyed by the exact request-target string).  Platform
APIs (WHATWG `URL`, `encodeURIComponent`, `DOMParser` anchor extraction,
the JavaScript regex used by the textual fallback) are modelled by executable
Lean functions that are documented where they simplify the platform.
The `AbortSignal` is modelled by boolean observations: constant `false` for an
unset signal, and an observation-indexed function where a claim needs the
signal to become set at a specific point.
-/

set_option autoImplicit false

namespace LinkScribe

/-- JavaScript `String.prototype.startsWith`: exact, case-sensitive character
prefix test.  This is the test used by the source at
`linkChecker.ts:223` and `linkChecker.ts:246`. -/
def jsStartsWith (s pre : String) : Bool :=
  pre.data.isPrefixOf s.data

/-- One hexadecimal digit (uppercase), as emitted by `encodeURIComponent`. -/
def hexDigit (n : Nat) : Char :=
  if n = 0 then '0' else if n = 1 then '1' else if n = 2 then '2'
  else if n = 3 then '3' else if n = 4 then '4' else if n = 5 then '5'
  else if n = 6 then '6' else if n = 7 then '7' else if n = 8 then '8'
  else if n = 9 then '9' else if n = 10 then 'A' else if n = 11 then 'B'
  else if n = 12 then 'C' else if n = 13 then 'D' else if n = 14 then 'E'
  else 'F'

/-- Characters `encodeURIComponent` leaves unescaped:
`A-Z a-z 0-9 - _ . ! ~ * ' ( )`. -/
def uriUnescaped (c : Char) : Bool :=
  c.isAlphanum || c = '-' || c = '_' || c = '.' || c = '!' || c = '~' ||
  c = '*' || c = '\'' || c = '(' || c = ')'

/-- Platform model of JavaScript `encodeURIComponent`, for the ASCII
code points that occur in this development (multi-byte UTF-8 escaping of
non-ASCII code points is not modelled; no claim depends on it). -/
def encodeURIComponent (s : String) : String :=
  String.mk (s.data.flatMap fun c =>
    if uriUnescaped c then [c]
    else ['%', hexDigit (c.toNat / 16 % 16), hexDigit (c.toNat % 16)])

/-- Scheme characters per WHATWG URL: ASCII alphanumerics, `+`, `-`, `.`. -/
def isSchemeChar (c : Char) : Bool :=
  c.isAlphanum || c = '+' || c = '-' || c = '.'

/-- The WHATWG "special" schemes used by this development (the source only
ever produces `http`, `https` and `ftp` absolute URLs). -/
def specialSchemes : List String := ["http", "https", "ftp"]

/-- Platform model of a parsed WHATWG URL record.
For special (authority-based) schemes `host` is the lower-cased authority and
`path` always begins with `/`; for non-special schemes (such as
`javascript:`) the path is opaque and `host` is empty. -/
structure UrlRec where
  scheme : String
  special : Bool
  host : String
  path : String
  query : Option String
  fragment : Option String
  deriving Repr, DecidableEq

/-- Split a character list at the first character satisfying `p`:
returns the part before it and the remainder beginning with it. -/
def splitAtChar (p : Char → Bool) : List Char → List Char × List Char
  | [] => ([], [])
  | c :: cs =>
    if p c then ([], c :: cs)
    else
      let r := splitAtChar p cs
      (c :: r.1, r.2)

/-- Split `path?query#fragment` chars into the three URL components. -/
def splitPathQueryFrag (cs : List Char) : List Char × Option (List Char) × Option (List Char) :=
  let s1 := splitAtChar (fun c => c = '?' || c = '#') cs
  match s1.2 with
  | [] => (s1.1, none, none)
  | '?' :: rest =>
    let s2 := splitAtChar (fun c => c = '#') rest
    match s2.2 with
    | [] => (s1.1, some s2.1, none)
    | _ :: frag => (s1.1, some s2.1, some frag)
  | _ :: frag => (s1.1, none, some frag)

/-- Platform model of `new URL(s)` (absolute parse).  Simplifications: the
whole authority is kept as `host` (no userinfo/port splitting — no input in
this development carries either), and dot-segment normalisation is not
performed (no input contains `.` or `..` segments). -/
def parseUrl (s : String) : Option UrlRec :=
  let sp := splitAtChar (fun c => !isSchemeChar c) s.data
  match sp.1 with
  | [] => none
  | c :: schemeRest =>
    if sp.2.head? = some ':' ∧ c.isAlpha = true then
      let scheme := String.mk ((c :: schemeRest).map Char.toLower)
      let rest := sp.2.tail
      if scheme ∈ specialSchemes then
        if rest.take 2 = ['/', '/'] then
          let rest2 := rest.drop 2
          let hp := splitAtChar (fun c => c = '/' || c = '?' || c = '#') rest2
          if hp.1 = [] then none
          else
            let pqf := splitPathQueryFrag hp.2
            some { scheme := scheme, special := true
                   host := String.mk (hp.1.map Char.toLower)
                   path := if pqf.1 = [] then "/" else String.mk pqf.1
                   query := pqf.2.1.map String.mk
                   fragment := pqf.2.2.map String.mk }
        else none
      else
        let s2 := splitAtChar (fun c => c = '#') rest
        some { scheme := scheme, special := false, host := ""
               path := String.mk s2.1
               query := none
               fragment := match s2.2 with
                           | [] => none
                           | _ :: frag => some (String.mk frag) }
    else none

/-- Platform model of `URL.prototype.toString` (serialisation). -/
def urlToString (u : UrlRec) : String :=
  u.scheme ++ ":" ++
  (if u.special then "//" ++ u.host ++ u.path else u.path) ++
  (match u.query with | none => "" | some q => "?" ++ q) ++
  (match u.fragment with | none => "" | some f => "#" ++ f)

/-- Directory part of a URL path: everything up to and including the last
`/` (used for merging a relative reference with the base path). -/
def pathDirectory (cs : List Char) : List Char :=
  ((cs.reverse.dropWhile (fun c => c ≠ '/')).reverse)

/-- Platform model of `new URL(href, base).toString()`: WHATWG relative
reference resolution, restricted to the shapes this development uses
(absolute references, scheme-relative `//`, root-relative `/`, query-only
`?`, fragment-only `#`, and plain relative paths; no dot-segment
normalisation). -/
def resolveUrl (href base : String) : Option String :=
  match parseUrl href with
  | some u => some (urlToString u)
  | none =>
    match parseUrl base with
    | none => none
    | some b =>
      if b.special then
        if jsStartsWith href "//" then
          let rest2 := href.data.drop 2
          let hp := splitAtChar (fun c => c = '/' || c = '?' || c = '#') rest2
          if hp.1 = [] then none
          else
            let pqf := splitPathQueryFrag hp.2
            some (urlToString { scheme := b.scheme, special := true
                                host := String.mk (hp.1.map Char.toLower)
                                path := if pqf.1 = [] then "/" else String.mk pqf.1
                                query := pqf.2.1.map String.mk
                                fragment := pqf.2.2.map String.mk })
        else
          match href.data with
          | [] => some (urlToString { b with fragment := none })
          | c0 :: restH =>
            if c0 = '/' then
              let pqf := splitPathQueryFrag href.data
              some (urlToString { b with path := String.mk pqf.1
                                         query := pqf.2.1.map String.mk
                                         fragment := pqf.2.2.map String.mk })
            else if c0 = '?' then
              let s2 := splitAtChar (fun c => c = '#') restH
              some (urlToString { b with query := some (String.mk s2.1)
                                         fragment := match s2.2 with
                                                     | [] => none
                                                     | _ :: f => some (String.mk f) })
            else if c0 = '#' then
              some (urlToString { b with fragment := some (String.mk restH) })
            else
              let pqf := splitPathQueryFrag href.data
              some (urlToString { b with
                      path := String.mk (pathDirectory b.path.data ++ pqf.1)
                      query := pqf.2.1.map String.mk
                      fragment := pqf.2.2.map String.mk })
      else none

/-- `new URL(s).hostname`, as used by the crawler's same-site filter
(`linkChecker.ts:149-151`). -/
def urlHostname (s : String) : Option String :=
  (parseUrl s).map UrlRec.host

/-! ## Data model -/

/-- `LinkCheckResult` from `src/types/linkTypes.ts`: one verification
outcome.  Optional fields are `Option`; an absent field is `none`. -/
structure LinkCheckResult where
  url : String
  isWorking : Bool
  statusCode : Option Nat
  error : Option String
  sourcePage : Option String
  deriving Repr, DecidableEq

/-- A JavaScript exception value as classified by the verifier's catch
block (`linkChecker.ts:401-409`): a `DOMException`/`Error` named
`AbortError` (produced by aborting a fetch, e.g. on timeout), any other
`Error` carrying a message, or a thrown non-`Error` value. -/
inductive JsError where
  | abortError
  | err (msg : String)
  | nonError
  deriving Repr, DecidableEq

/-- Outcome of one `fetch` attempt: an HTTP response (any status) with its
status text, or a rejection with a JavaScript error. -/
inductive FetchOutcome where
  | resp (status : Nat) (statusText : String)
  | fail (e : JsError)
  deriving Repr, DecidableEq

/-- An issued network request: method and the exact target string
handed to `fetch`. -/
structure Request where
  method : String
  target : String
  deriving Repr, DecidableEq

/-- The distinct cancellation outcome: `new DOMException("Aborted",
"AbortError")` thrown by the source on observing the cancellation signal. -/
inductive Cancelled where
  | abort
  deriving Repr, DecidableEq

/-- `response.ok`: status in the inclusive range 200–299. -/
def respOk (status : Nat) : Bool :=
  200 ≤ status && status < 300

/-- The message of the platform `TypeError` thrown by `new URL` on an
unparseable string (platform model; only its identity as a generic
`Error` message matters to the claims). -/
def invalidUrlMessage : String := "Invalid URL"

/-- The error message computed by the verifier's catch block
(`linkChecker.ts:401-409`): "Request timeout" for an abort, the error's own
message for any other `Error`, "Connection failed" otherwise. -/
def errMessageOf : JsError → String
  | .abortError => "Request timeout"
  | .err msg => msg
  | .nonError => "Connection failed"

/-- Result built from a completed HTTP response
(`linkChecker.ts:350-356` and `385-391`). -/
def mkRespResult (url : String) (sourcePage : Option String)
    (status : Nat) (statusText : String) : LinkCheckResult :=
  { url := url
    isWorking := respOk status
    statusCode := some status
    error := if respOk status then none
             else some (toString status ++ " " ++ statusText)
    sourcePage := sourcePage }

/-- Result built by the verifier's catch block on a transport-level
failure (`linkChecker.ts:411-416`): no status code. -/
def mkFailResult (url : String) (sourcePage : Option String)
    (e : JsError) : LinkCheckResult :=
  { url := url
    isWorking := false
    statusCode := none
    error := some (errMessageOf e)
    sourcePage := sourcePage }

/-! ## Single-Link Verifier (`checkSingleLink`, `linkChecker.ts:307-418`) -/

/-- Environment of network oracles.  Request outcomes are keyed by the
exact request-target string handed to `fetch`; `fetchPage` models the page
fetch of the crawler's proxy loop (`some html` = an `ok` response whose
body is `html`, `none` = a thrown transport error or a non-`ok` response,
both of which advance the proxy loop). -/
structure NetEnv where
  fetchPage : String → Option String
  head : String → FetchOutcome
  get : String → FetchOutcome

/-- `linkChecker.ts:319-320`: `new URL(url)` followed by
`searchParams.append('_cb', now)` and serialisation; `none` when `new URL`
throws.  The appended pair is serialised as `_cb=<now>` at the end of the
query string (platform model of `URLSearchParams`). -/
def addCacheBuster (url : String) (now : Nat) : Option String :=
  (parseUrl url).map fun u =>
    urlToString { u with
      query := some ((match u.query with
                      | none => ""
                      | some q => q ++ "&") ++ "_cb=" ++ toString now) }

/-- Shallow embedding of `checkSingleLink` (`linkChecker.ts:307-418`).
`aborted` is the cancellation signal's value, observed as a constant within
the call (the claims about this function quantify over signal states fixed
before the call).  Returns the verifier's outcome — `.error .abort` models
the thrown `AbortError`, `.ok r` a returned result — together with the
trace of issued requests in order. -/
def checkSingleLink (env : NetEnv) (url proxyUsed : String)
    (sourcePage : Option String) (aborted : Bool) (now : Nat) :
    Except Cancelled LinkCheckResult × List Request :=
  if aborted then (.error .abort, [])
  else
    match addCacheBuster url now with
    | none =>
      -- `new URL(url)` threw; the outer catch turns it into a result.
      (.ok (mkFailResult url sourcePage (.err invalidUrlMessage)), [])
    | some cbUrl =>
      let proxyUrl := proxyUsed ++ encodeURIComponent cbUrl
      match env.head proxyUrl with
      | .resp st stxt =>
        (.ok (mkRespResult url sourcePage st stxt), [⟨"HEAD", proxyUrl⟩])
      | .fail _headErr =>
        if aborted then (.error .abort, [⟨"HEAD", proxyUrl⟩])
        else
          match env.get proxyUrl with
          | .resp st stxt =>
            (.ok (mkRespResult url sourcePage st stxt),
             [⟨"HEAD", proxyUrl⟩, ⟨"GET", proxyUrl⟩])
          | .fail getErr =>
            if aborted then (.error .abort, [⟨"HEAD", proxyUrl⟩, ⟨"GET", proxyUrl⟩])
            else
              (.ok (mkFailResult url sourcePage getErr),
               [⟨"HEAD", proxyUrl⟩, ⟨"GET", proxyUrl⟩])

/-! ## Link Extractor (`extractLinks`, `linkChecker.ts:207-261`)

The structural path models `DOMParser` / `querySelectorAll('a')` /
`getAttribute('href')` by a scanner that collects, for each `<a ...>` tag in
document order, its (double- or single-quoted) `href` attribute value, or
`none` when the tag has no such attribute.  The textual path models the
JavaScript regex `/href=["']((?:(?:https?|ftp):\/\/|\/)[^"'\s>]+)["']/gi`
with its `exec` loop: leftmost matches, scanning resuming after each match. -/

/-- Case-insensitive literal match: consume `pat` (given lower-case) from the
front of the input, returning the remainder. -/
def matchCi : List Char → List Char → Option (List Char)
  | [], l => some l
  | _, [] => none
  | p :: ps, c :: cs => if c.toLower = p then matchCi ps cs else none

/-- Case-insensitive literal match that also returns the consumed input
characters in their original case (regex captures preserve input case). -/
def matchCiKeep : List Char → List Char → Option (List Char × List Char)
  | [], l => some ([], l)
  | _, [] => none
  | p :: ps, c :: cs =>
    if c.toLower = p then (matchCiKeep ps cs).map (fun r => (c :: r.1, r.2)) else none

/-- Split the character list right after the first `>`: the tag's attribute
region and the remainder of the document. -/
def splitTag (cs : List Char) : List Char × List Char :=
  let s := splitAtChar (fun c => c = '>') cs
  (s.1, match s.2 with | [] => [] | _ :: rest => rest)

/-- A character that may terminate the tag name `a` (so that `<a ...>`,
`<a>`, `<a/>` are anchors but `<abbr>` is not). -/
def isAnchorDelim : List Char → Bool
  | [] => false
  | c :: _ => c = ' ' || c = '\t' || c = '\n' || c = '\r' || c = '/' || c = '>'

def isQuoteChar (c : Char) : Bool := c = '"' || c = '\''

/-- Find the (quoted) `href` attribute value inside a tag's attribute
region; `none` when the tag carries no quoted `href` attribute
(`getAttribute('href')` returning `null`). -/
def findHrefAttr : List Char → Option String
  | [] => none
  | c :: rest =>
    match matchCi ['h', 'r', 'e', 'f', '='] (c :: rest) with
    | some afterEq =>
      match afterEq with
      | q :: rest2 =>
        if isQuoteChar q then
          let v := splitAtChar (fun c2 => c2 = q) rest2
          match v.2 with
          | [] => none
          | _ :: _ => some (String.mk v.1)
        else findHrefAttr rest
      | [] => none
    | none => findHrefAttr rest

theorem splitAtChar_snd_length (p : Char → Bool) (cs : List Char) :
    (splitAtChar p cs).2.length ≤ cs.length := by
  induction cs with
  | nil => simp [splitAtChar]
  | cons c cs ih =>
    simp only [splitAtChar]
    split
    · simp
    · simpa using Nat.le_succ_of_le ih

theorem splitTag_snd_length (cs : List Char) :
    (splitTag cs).2.length ≤ cs.length := by
  have h := splitAtChar_snd_length (fun c => c = '>') cs
  simp only [splitTag]
  cases hs : (splitAtChar (fun c => c = '>') cs).2 with
  | nil => simp
  | cons c rest =>
    rw [hs] at h
    simpa using Nat.le_of_succ_le h

theorem splitTag_tail_lt (cs : List Char) :
    (splitTag cs.tail).2.length < cs.length + 1 := by
  have h1 := splitTag_snd_length cs.tail
  have h2 : cs.tail.length ≤ cs.length := by cases cs <;> simp
  omega

/-- Whether the characters after a `<` start an anchor tag: `a` or `A`
followed by a name-terminating character. -/
def anchorTagAt : List Char → Bool
  | [] => false
  | c2 :: rest2 => (c2 = 'a' || c2 = 'A') && isAnchorDelim rest2

/-- Fuel-indexed scanner for anchor `href` attributes; the scanner consumes
at least one character per step, so fuel `l.length` always suffices (the
zero-fuel branch is unreachable from `anchorHrefs`). -/
def anchorHrefsF : Nat → List Char → List (Option String)
  | 0, _ => []
  | _ + 1, [] => []
  | fuel + 1, c :: rest =>
    if c = '<' && anchorTagAt rest then
      findHrefAttr (splitTag rest.tail).1 :: anchorHrefsF fuel (splitTag rest.tail).2
    else anchorHrefsF fuel rest

/-- Collect the `href` attribute (or `none`) of every anchor tag, in
document order (platform model of `querySelectorAll('a')` followed by
`getAttribute('href')`). -/
def anchorHrefs (l : List Char) : List (Option String) := anchorHrefsF l.length l

theorem anchorHrefsF_fuel (fuel1 : Nat) : ∀ (fuel2 : Nat) (l : List Char),
    l.length ≤ fuel1 → l.length ≤ fuel2 → anchorHrefsF fuel1 l = anchorHrefsF fuel2 l := by
  induction fuel1 with
  | zero =>
    intro fuel2 l h1 _
    have : l = [] := List.eq_nil_of_length_eq_zero (by omega)
    subst this
    cases fuel2 <;> rfl
  | succ fuel1 ih =>
    intro fuel2 l h1 h2
    match fuel2, l with
    | 0, l =>
      have : l = [] := List.eq_nil_of_length_eq_zero (by omega)
      subst this
      rfl
    | fuel2 + 1, [] => rfl
    | fuel2 + 1, c :: rest =>
      show anchorHrefsF (fuel1 + 1) (c :: rest) = anchorHrefsF (fuel2 + 1) (c :: rest)
      rw [anchorHrefsF, anchorHrefsF]
      have hlt := splitTag_tail_lt rest
      simp only [List.length_cons] at h1 h2
      split
      · rw [ih fuel2 (splitTag rest.tail).2 (by omega) (by omega)]
      · rw [ih fuel2 rest (by omega) (by omega)]

/-- One-step unfolding of `anchorHrefs`. -/
theorem anchorHrefs_cons (c : Char) (rest : List Char) :
    anchorHrefs (c :: rest) =
      if c = '<' && anchorTagAt rest then
        findHrefAttr (splitTag rest.tail).1 :: anchorHrefs (splitTag rest.tail).2
      else anchorHrefs rest := by
  show anchorHrefsF (rest.length + 1) (c :: rest) = _
  rw [anchorHrefsF]
  have hlt := splitTag_tail_lt rest
  split
  · rw [anchorHrefsF_fuel rest.length (splitTag rest.tail).2.length (splitTag rest.tail).2
        (by omega) (by omega)]
    rfl
  · rfl

/-- A character the regex's value class `[^"'\s>]` accepts. -/
def regexValueChar (c : Char) : Bool :=
  !(isQuoteChar c || c = '>' || c.isWhitespace)

/-- The regex's leading alternation `(?:(?:https?|ftp):\/\/|\/)`,
case-insensitively, returning the consumed characters and the remainder. -/
def matchUrlStart (l : List Char) : Option (List Char × List Char) :=
  match matchCiKeep "https://".data l with
  | some r => some r
  | none =>
    match matchCiKeep "http://".data l with
    | some r => some r
    | none =>
      match matchCiKeep "ftp://".data l with
      | some r => some r
      | none =>
        match l with
        | c0 :: rest => if c0 = '/' then some ([c0], rest) else none
        | [] => none

/-- Attempt the whole regex at the current position: `href=`, an opening
quote, the URL-start alternation, one or more value characters, a closing
quote (either kind, as in the source pattern).  Returns the capture and the
remainder after the match. -/
def tryMatchHref (l : List Char) : Option (String × List Char) :=
  match matchCi ['h', 'r', 'e', 'f', '='] l with
  | none => none
  | some l1 =>
    match l1 with
    | [] => none
    | q :: l2 =>
      if isQuoteChar q then
        match matchUrlStart l2 with
        | none => none
        | some (pfxChars, l3) =>
          let tail := l3.takeWhile regexValueChar
          let l4 := l3.drop tail.length
          if tail.isEmpty then none
          else
            match l4 with
            | [] => none
            | c :: l5 =>
              if isQuoteChar c then some (String.mk (pfxChars ++ tail), l5)
              else none
      else none

theorem matchCi_length (ps : List Char) : ∀ l l', matchCi ps l = some l' →
    l'.length + ps.length = l.length := by
  induction ps with
  | nil => intro l l' h; simp [matchCi] at h; simp [h]
  | cons p ps ih =>
    intro l l' h
    match l with
    | [] => simp [matchCi] at h
    | c :: cs =>
      simp only [matchCi] at h
      split at h
      · have := ih cs l' h
        simp only [List.length_cons]
        omega
      · exact absurd h (by simp)

theorem matchCiKeep_length (ps : List Char) : ∀ l r, matchCiKeep ps l = some r →
    r.2.length + ps.length = l.length := by
  induction ps with
  | nil => intro l r h; simp [matchCiKeep] at h; simp [← h]
  | cons p ps ih =>
    intro l r h
    match l with
    | [] => simp [matchCiKeep] at h
    | c :: cs =>
      simp only [matchCiKeep] at h
      split at h
      · match hm : matchCiKeep ps cs with
        | none => rw [hm] at h; simp [Option.map] at h
        | some r2 =>
          rw [hm] at h
          simp only [Option.map_some', Option.some.injEq] at h
          have := ih cs r2 hm
          subst h
          show r2.2.length + (p :: ps).length = (c :: cs).length
          simp only [List.length_cons]
          omega
      · exact absurd h (by simp)

theorem matchUrlStart_length (l : List Char) (r : List Char × List Char)
    (h : matchUrlStart l = some r) : r.2.length < l.length := by
  simp only [matchUrlStart] at h
  split at h
  · next hm =>
    have := matchCiKeep_length _ _ _ hm
    injection h with h; subst h; simp at this; omega
  · split at h
    · next hm =>
      have := matchCiKeep_length _ _ _ hm
      injection h with h; subst h; simp at this; omega
    · split at h
      · next hm =>
        have := matchCiKeep_length _ _ _ hm
        injection h with h; subst h; simp at this; omega
      · match l, h with
        | c0 :: rest, h => ?_
        try dsimp only at h
        split at h
        · injection h with h
          subst h
          simp
        · exact absurd h (by simp)

theorem tryMatchHref_length (l : List Char) (r : String × List Char)
    (h : tryMatchHref l = some r) : r.2.length < l.length := by
  simp only [tryMatchHref] at h
  match hm : matchCi ['h', 'r', 'e', 'f', '='] l with
  | none => rw [hm] at h; exact absurd h (by simp)
  | some l1 =>
    rw [hm] at h
    have hl1 := matchCi_length _ _ _ hm
    match l1, h with
    | q :: l2, h =>
      simp only at h
      split at h
      · match hu : matchUrlStart l2 with
        | none => rw [hu] at h; exact absurd h (by simp)
        | some pr =>
          rw [hu] at h
          have hl3 := matchUrlStart_length _ _ hu
          simp only at h
          split at h
          · exact absurd h (by simp)
          · match h4 : pr.2.drop (pr.2.takeWhile regexValueChar).length, h with
            | c :: l5, h =>
              simp only at h
              split at h
              · injection h with h
                have hd : l5.length < pr.2.length + 1 := by
                  have := List.length_drop (pr.2.takeWhile regexValueChar).length pr.2
                  rw [h4] at this
                  simp only [List.length_cons] at this
                  omega
                subst h
                show l5.length < l.length
                simp only [List.length_cons] at hl1
                omega
              · exact absurd h (by simp)
      · exact absurd h (by simp)

/-- Fuel-indexed scanner for the fallback regex; a successful match
consumes at least one character, so fuel `l.length` always suffices. -/
def regexHrefMatchesF : Nat → List Char → List String
  | 0, _ => []
  | _ + 1, [] => []
  | fuel + 1, c :: rest =>
    match tryMatchHref (c :: rest) with
    | some r => r.1 :: regexHrefMatchesF fuel r.2
    | none => regexHrefMatchesF fuel rest

/-- The `exec` loop over the fallback regex (`linkChecker.ts:239-257`):
leftmost matches, scanning resuming after each complete match. -/
def regexHrefMatches (l : List Char) : List String := regexHrefMatchesF l.length l

theorem regexHrefMatchesF_fuel (fuel1 : Nat) : ∀ (fuel2 : Nat) (l : List Char),
    l.length ≤ fuel1 → l.length ≤ fuel2 →
    regexHrefMatchesF fuel1 l = regexHrefMatchesF fuel2 l := by
  induction fuel1 with
  | zero =>
    intro fuel2 l h1 _
    have : l = [] := List.eq_nil_of_length_eq_zero (by omega)
    subst this
    cases fuel2 <;> rfl
  | succ fuel1 ih =>
    intro fuel2 l h1 h2
    match fuel2, l with
    | 0, l =>
      have : l = [] := List.eq_nil_of_length_eq_zero (by omega)
      subst this
      rfl
    | fuel2 + 1, [] => rfl
    | fuel2 + 1, c :: rest =>
      show regexHrefMatchesF (fuel1 + 1) (c :: rest) = regexHrefMatchesF (fuel2 + 1) (c :: rest)
      rw [regexHrefMatchesF, regexHrefMatchesF]
      simp only [List.length_cons] at h1 h2
      cases hm : tryMatchHref (c :: rest) with
      | some r =>
        have hlt := tryMatchHref_length _ _ hm
        simp only [List.length_cons] at hlt
        dsimp only
        rw [ih fuel2 r.2 (by omega) (by omega)]
      | none =>
        dsimp only
        rw [ih fuel2 rest (by omega) (by omega)]

/-- One-step unfolding of `regexHrefMatches`. -/
theorem regexHrefMatches_cons (c : Char) (rest : List Char) :
    regexHrefMatches (c :: rest) =
      match tryMatchHref (c :: rest) with
      | some r => r.1 :: regexHrefMatches r.2
      | none => regexHrefMatches rest := by
  show regexHrefMatchesF (rest.length + 1) (c :: rest) = _
  rw [regexHrefMatchesF]
  cases hm : tryMatchHref (c :: rest) with
  | some r =>
    have hlt := tryMatchHref_length _ _ hm
    simp only [List.length_cons] at hlt
    dsimp only
    rw [regexHrefMatchesF_fuel rest.length r.2.length r.2 (by omega) (by omega)]
    rfl
  | none => rfl

/-- The filter applied to each raw link target
(`linkChecker.ts:223` and `linkChecker.ts:246`): non-empty, not a script
pseudo-URL, not fragment-only.  `startsWith` is the case-sensitive
JavaScript test. -/
def keepHref (href : String) : Bool :=
  href ≠ "" && !jsStartsWith href "javascript:" && !jsStartsWith href "#"

/-- Shallow embedding of `extractLinks` (`linkChecker.ts:207-261`).
`domAvailable = true` is the structural (`DOMParser`) path, `false` the
textual regex fallback taken when constructing the parser throws. -/
def extractLinks (domAvailable : Bool) (html baseUrl : String) : List String :=
  if domAvailable then
    (anchorHrefs html.data).filterMap fun h? =>
      match h? with
      | none => none
      | some href => if keepHref href then resolveUrl href baseUrl else none
  else
    (regexHrefMatches html.data).filterMap fun href =>
      if keepHref href then resolveUrl href baseUrl else none

/-! ## Batch Scheduler (`checkLinksInBatches`, `linkChecker.ts:263-305`)

The `for` loop is embedded as a fuel-indexed step function; `none` models
non-termination (fuel is chosen below so that it suffices for every
terminating execution).  `Promise.all` starts every request of a window and
settles in the window's input order regardless of completion order; it is
modelled by `promiseAll` over the per-link outcomes.  The cancellation
signal is observed once per window (`linkChecker.ts:278`); it is modelled as
a function of the window index, and the requests of a window run with the
(unset) value just observed. -/

/-- `Promise.all` over already-determined outcomes: all promises are
started; the combined promise rejects with the first rejection in input
order, else resolves to the list of values in input order. -/
def promiseAll {ε β : Type} : List (Except ε β) → Except ε (List β)
  | [] => .ok []
  | .error e :: _ => .error e
  | .ok b :: rest => (promiseAll rest).map (b :: ·)

/-- The observable behaviour of one `checkLinksInBatches` call: its outcome
(the returned result list, or the thrown `AbortError`), the list of
`onBatchComplete` emissions that happened along the way, and the trace of
issued requests. -/
structure BatchOut where
  outcome : Except Cancelled (List LinkCheckResult)
  emitted : List (List LinkCheckResult)
  trace : List Request
  deriving Repr

/-- The result `checkSingleLink` computes for a link under an unset
signal (total by `checkSingleLink_unset_ok` below; the second branch is
unreachable). -/
def verifyLink (env : NetEnv) (url proxyUsed : String) (sourcePage : Option String)
    (now : Nat) : LinkCheckResult :=
  match (checkSingleLink env url proxyUsed sourcePage false now).1 with
  | .ok r => r
  | .error _ => mkFailResult url sourcePage .nonError

/-- The requests `checkSingleLink` issues for a link under an unset signal. -/
def verifyTrace (env : NetEnv) (url proxyUsed : String) (sourcePage : Option String)
    (now : Nat) : List Request :=
  (checkSingleLink env url proxyUsed sourcePage false now).2

/-- One window's results: the window starting at link index `k * bs`. -/
def windowResults (env : NetEnv) (links : List String) (bs : Nat)
    (proxyUsed : String) (sourcePage : Option String) (now : Nat) (k : Nat) :
    List LinkCheckResult :=
  ((links.drop (k * bs)).take bs).map (fun l => verifyLink env l proxyUsed sourcePage now)

/-- The loop of `checkLinksInBatches` (`linkChecker.ts:277-294`), one fuel
unit per iteration.  `i` is the loop index; `results`, `emitted`, `trace`
accumulate.  The signal is observed at the top of each iteration
(`linkChecker.ts:278`), indexed by the number of completed windows. -/
def runBatchesFuel (env : NetEnv) (links : List String) (bs : Nat)
    (proxyUsed : String) (sourcePage : Option String) (sig : Nat → Bool) (now : Nat) :
    Nat → Nat → List LinkCheckResult → List (List LinkCheckResult) → List Request →
    Option BatchOut
  | 0, _, _, _, _ => none
  | fuel + 1, i, results, emitted, trace =>
    if i < links.length then
      if sig emitted.length then some ⟨.error .abort, emitted, trace⟩
      else
        let batch := (links.drop i).take bs
        let batchTrace := (batch.map fun l => verifyTrace env l proxyUsed sourcePage now).flatten
        match promiseAll (batch.map fun l =>
            (checkSingleLink env l proxyUsed sourcePage false now).1) with
        | .error e => some ⟨.error e, emitted, trace ++ batchTrace⟩
        | .ok batchResults =>
          runBatchesFuel env links bs proxyUsed sourcePage sig now fuel (i + bs)
            (results ++ batchResults) (emitted ++ [batchResults]) (trace ++ batchTrace)
    else some ⟨.ok results, emitted, trace⟩

/-- The observations an optional signal yields: an unset signal reads
`false` at every observation point. -/
def sigOf (sig : Option (Nat → Bool)) : Nat → Bool :=
  fun k => match sig with | none => false | some f => f k

theorem sigOf_none : sigOf none = fun _ => false := rfl

theorem sigOf_some (f : Nat → Bool) : sigOf (some f) = f := rfl

/-- Shallow embedding of `checkLinksInBatches` (`linkChecker.ts:263-305`).
The optional signal is `none` when unset; fuel `links.length + 1` suffices
for every terminating execution of the source loop (the index advances by
`batchSize ≥ 1` each iteration), and is exhausted exactly when the source
loop cannot terminate (`batchSize = 0` with a non-empty list). -/
def checkLinksInBatches (env : NetEnv) (links : List String) (batchSize : Nat)
    (proxyUsed : String) (sourcePage : Option String) (sig : Option (Nat → Bool))
    (now : Nat) : Option BatchOut :=
  runBatchesFuel env links batchSize proxyUsed sourcePage (sigOf sig) now
    (links.length + 1) 0 [] [] []

/-! ### Verifier basic lemmas -/

theorem checkSingleLink_unset_ok (env : NetEnv) (url proxyUsed : String)
    (sourcePage : Option String) (now : Nat) :
    (checkSingleLink env url proxyUsed sourcePage false now).1 =
      .ok (verifyLink env url proxyUsed sourcePage now) := by
  have : ∃ r, (checkSingleLink env url proxyUsed sourcePage false now).1 = .ok r := by
    unfold checkSingleLink
    simp only [Bool.false_eq_true, if_false]
    split
    · exact ⟨_, rfl⟩
    · split
      · exact ⟨_, rfl⟩
      · split
        · exact ⟨_, rfl⟩
        · exact ⟨_, rfl⟩
  obtain ⟨r, hr⟩ := this
  rw [hr, verifyLink, hr]

/-- Whatever the outcomes, a returned result carries the verifier's input
URL and source page verbatim. -/
theorem checkSingleLink_ok_fields (env : NetEnv) (url proxyUsed : String)
    (sourcePage : Option String) (ab : Bool) (now : Nat) (r : LinkCheckResult)
    (h : (checkSingleLink env url proxyUsed sourcePage ab now).1 = .ok r) :
    r.url = url ∧ r.sourcePage = sourcePage := by
  unfold checkSingleLink at h
  cases ab with
  | true => simp at h
  | false =>
    simp only [Bool.false_eq_true, if_false] at h
    cases hcb : addCacheBuster url now with
    | none =>
      rw [hcb] at h
      simp only at h
      injection h with h
      subst h
      exact ⟨rfl, rfl⟩
    | some cbUrl =>
      rw [hcb] at h
      simp only at h
      cases hh : env.head (proxyUsed ++ encodeURIComponent cbUrl) with
      | resp st stxt =>
        rw [hh] at h
        simp only at h
        injection h with h
        subst h
        exact ⟨rfl, rfl⟩
      | fail e =>
        rw [hh] at h
        simp only [Bool.false_eq_true, if_false] at h
        cases hg : env.get (proxyUsed ++ encodeURIComponent cbUrl) with
        | resp st stxt =>
          rw [hg] at h
          simp only at h
          injection h with h
          subst h
          exact ⟨rfl, rfl⟩
        | fail e2 =>
          rw [hg] at h
          simp only [Bool.false_eq_true, if_false] at h
          injection h with h
          subst h
          exact ⟨rfl, rfl⟩

theorem verifyLink_url (env : NetEnv) (url proxyUsed : String)
    (sourcePage : Option String) (now : Nat) :
    (verifyLink env url proxyUsed sourcePage now).url = url :=
  (checkSingleLink_ok_fields env url proxyUsed sourcePage false now _
    (checkSingleLink_unset_ok env url proxyUsed sourcePage now)).1

theorem verifyLink_sourcePage (env : NetEnv) (url proxyUsed : String)
    (sourcePage : Option String) (now : Nat) :
    (verifyLink env url proxyUsed sourcePage now).sourcePage = sourcePage :=
  (checkSingleLink_ok_fields env url proxyUsed sourcePage false now _
    (checkSingleLink_unset_ok env url proxyUsed sourcePage now)).2

theorem promiseAll_map_ok {α β ε : Type} (f : α → Except ε β) (g : α → β)
    (hf : ∀ a, f a = .ok (g a)) : ∀ l : List α,
    promiseAll (l.map f) = .ok (l.map g)
  | [] => rfl
  | a :: rest => by
    simp only [List.map_cons]
    rw [hf a]
    show (promiseAll (rest.map f)).map _ = _
    rw [promiseAll_map_ok f g hf rest]
    rfl

/-! ### Batch-loop lemmas -/

theorem runBatchesFuel_step (env : NetEnv) (links : List String) (bs : Nat)
    (proxyUsed : String) (sp : Option String) (sig : Nat → Bool) (now : Nat)
    (fuel i : Nat) (results : List LinkCheckResult)
    (emitted : List (List LinkCheckResult)) (trace : List Request)
    (hi : i < links.length) (hs : sig emitted.length = false) :
    runBatchesFuel env links bs proxyUsed sp sig now (fuel + 1) i results emitted trace =
      runBatchesFuel env links bs proxyUsed sp sig now fuel (i + bs)
        (results ++ ((links.drop i).take bs).map (fun l => verifyLink env l proxyUsed sp now))
        (emitted ++ [((links.drop i).take bs).map (fun l => verifyLink env l proxyUsed sp now)])
        (trace ++ (((links.drop i).take bs).map fun l => verifyTrace env l proxyUsed sp now).flatten) := by
  rw [runBatchesFuel, if_pos hi, hs]
  simp only [Bool.false_eq_true, if_false]
  rw [promiseAll_map_ok _ (fun l => verifyLink env l proxyUsed sp now)
        (fun l => checkSingleLink_unset_ok env l proxyUsed sp now)]

theorem runBatchesFuel_unset_ok (env : NetEnv) (links : List String) (bs : Nat)
    (proxyUsed : String) (sp : Option String) (sig : Nat → Bool) (now : Nat)
    (hsig : ∀ w, sig w = false) (hb : 0 < bs) :
    ∀ (fuel i : Nat) (results : List LinkCheckResult)
      (emitted : List (List LinkCheckResult)) (trace : List Request),
      links.length - i < fuel →
      ∃ out, runBatchesFuel env links bs proxyUsed sp sig now fuel i results emitted trace =
          some out ∧
        out.outcome = .ok (results ++
          ((links.drop i).map fun l => verifyLink env l proxyUsed sp now)) := by
  intro fuel
  induction fuel with
  | zero => intro i _ _ _ h; omega
  | succ fuel ih =>
    intro i results emitted trace h
    by_cases hi : i < links.length
    · rw [runBatchesFuel_step env links bs proxyUsed sp sig now fuel i results emitted trace hi
          (hsig _)]
      have hfuel : links.length - (i + bs) < fuel := by omega
      obtain ⟨out, hrun, hout⟩ := ih (i + bs) _ _ _ hfuel
      refine ⟨out, hrun, ?_⟩
      rw [hout]
      rw [List.append_assoc, ← List.map_append]
      have hsplit : (links.drop i).take bs ++ links.drop (i + bs) = links.drop i := by
        rw [← List.drop_drop]
        exact List.take_append_drop bs (links.drop i)
      rw [hsplit]
    · rw [runBatchesFuel, if_neg hi]
      refine ⟨_, rfl, ?_⟩
      have : links.drop i = [] := List.drop_eq_nil_of_le (by omega)
      simp [this]

/-- The batch loop, observing the signal set for the first time before
window `w` (a window that exists), aborts there: it throws `AbortError`,
has emitted exactly the results of windows `0..w-1`, and has issued
requests for exactly the links of those windows. -/
theorem runBatchesFuel_abort (env : NetEnv) (links : List String) (bs : Nat)
    (proxyUsed : String) (sp : Option String) (sig : Nat → Bool) (now : Nat)
    (w : Nat) (hb : 0 < bs) (hw : sig w = true) (hlt : ∀ j, j < w → sig j = false)
    (hstart : w * bs < links.length) :
    ∀ (d j fuel : Nat) (results : List LinkCheckResult)
      (emitted : List (List LinkCheckResult)) (trace : List Request),
      j + d = w → emitted.length = j → d < fuel →
      runBatchesFuel env links bs proxyUsed sp sig now fuel (j * bs) results emitted trace =
        some ⟨.error .abort,
          emitted ++ (List.range' j d).map
            (windowResults env links bs proxyUsed sp now),
          trace ++ (((links.drop (j * bs)).take (d * bs)).map
            fun l => verifyTrace env l proxyUsed sp now).flatten⟩ := by
  intro d
  induction d with
  | zero =>
    intro j fuel results emitted trace hj hlen hfuel
    have hjw : j = w := by omega
    subst hjw
    match fuel, hfuel with
    | fuel + 1, _ =>
      rw [runBatchesFuel, if_pos hstart, hlen, hw]
      simp
  | succ d ih =>
    intro j fuel results emitted trace hj hlen hfuel
    have hjw : j < w := by omega
    have hi : j * bs < links.length :=
      Nat.lt_trans ((Nat.mul_lt_mul_right hb).mpr hjw) hstart
    match fuel, hfuel with
    | fuel + 1, hfuel =>
      rw [runBatchesFuel_step env links bs proxyUsed sp sig now fuel (j * bs) results emitted
            trace hi (by rw [hlen]; exact hlt j hjw)]
      rw [show j * bs + bs = (j + 1) * bs by ring]
      rw [ih (j + 1) fuel _ _ _ (by omega) (by simp [hlen]) (by omega)]
      have hE : (emitted ++ [((links.drop (j * bs)).take bs).map
            (fun l => verifyLink env l proxyUsed sp now)]) ++
          (List.range' (j + 1) d).map (windowResults env links bs proxyUsed sp now) =
          emitted ++ (List.range' j (d + 1)).map
            (windowResults env links bs proxyUsed sp now) := by
        rw [List.append_assoc, List.range'_succ]
        simp [windowResults]
      have hT : (trace ++ (((links.drop (j * bs)).take bs).map
            fun l => verifyTrace env l proxyUsed sp now).flatten) ++
          (((links.drop ((j + 1) * bs)).take (d * bs)).map
            fun l => verifyTrace env l proxyUsed sp now).flatten =
          trace ++ (((links.drop (j * bs)).take ((d + 1) * bs)).map
            fun l => verifyTrace env l proxyUsed sp now).flatten := by
        rw [List.append_assoc]
        congr 1
        rw [show (d + 1) * bs = bs + d * bs by ring, List.take_add,
            List.map_append, List.flatten_append, List.drop_drop,
            show j * bs + bs = (j + 1) * bs by ring]
      rw [hE, hT]

/-! ## Site Crawler (`checkLinks`, `linkChecker.ts:5-205`)

The crawl loop is embedded as a step function on an explicit state plus a
fuel-indexed runner.  The cancellation signal is modelled at loop
granularity: it is observed once per iteration of the `while` loop (and
once after the loop drains), and all observation points inside one
iteration see the value just observed (which is `false` whenever the
iteration runs at all).  `none` from the runner means the fuel ran out. -/

structure PageEntry where
  url : String
  depth : Nat
  deriving Repr, DecidableEq

structure CrawlState where
  queue : List PageEntry
  visited : List String
  results : List LinkCheckResult
  checkedPages : Nat
  proxyUsed : String
  trace : List Request
  deriving Repr

structure CrawlConfig where
  recursive : Bool
  maxDepth : Nat
  baseDomain : String
  deriving Repr

/-- The fixed ordered proxy list (`linkChecker.ts:30-34`). -/
def corsProxies : List String :=
  ["https://api.allorigins.win/raw?url=",
   "https://corsproxy.io/?",
   "https://cors-anywhere.herokuapp.com/"]

/-- The proxy loop (`linkChecker.ts:55-98`): try each proxy in order
against the page URL; first success wins.  Returns the page-fetch trace and
the successful proxy with the fetched HTML, if any. -/
def tryProxies (env : NetEnv) : List String → String → List Request × Option (String × String)
  | [], _ => ([], none)
  | p :: ps, pageUrl =>
    let target := p ++ encodeURIComponent pageUrl
    match env.fetchPage target with
    | some html => ([⟨"GET", target⟩], some (p, html))
    | none =>
      let r := tryProxies env ps pageUrl
      (⟨"GET", target⟩ :: r.1, r.2)

/-- The fixed exclusion list of the recursive-crawl filter's regex
(`linkChecker.ts:152`). -/
def excludedExtensions : List String :=
  ["jpg", "jpeg", "png", "gif", "svg", "webp", "ico", "pdf", "zip", "rar",
   "mp3", "mp4", "webm", "avi", "mov", "wmv", "flv", "doc", "docx", "xls",
   "xlsx", "ppt", "pptx", "txt", "csv", "json", "xml", "rss"]

/-- The regex `/\.(jpg|...|rss)$/i` applied to a whole URL string:
case-insensitive test that the string ends in a dot followed by one of the
excluded extensions. -/
def hasExcludedExtension (s : String) : Bool :=
  excludedExtensions.any fun ext => ('.' :: ext.data).isSuffixOf (s.data.map Char.toLower)

/-- The recursive-crawl enqueue filter (`linkChecker.ts:145-156`): the link
result must be working, its URL must parse, its hostname must equal the
start URL's hostname, and the URL must not end in an excluded extension. -/
def crawlPageFilter (baseDomain : String) (r : LinkCheckResult) : Bool :=
  r.isWorking &&
  (match parseUrl r.url with
   | some u => u.host == baseDomain && !hasExcludedExtension r.url
   | none => false)

/-- `[...new Set(links)]`: deduplication keeping first occurrences
(`linkChecker.ts:111`). -/
def dedupAux (seen : List String) : List String → List String
  | [] => []
  | x :: xs => if x ∈ seen then dedupAux seen xs else x :: dedupAux (x :: seen) xs

def dedupKeepFirst (l : List String) : List String := dedupAux [] l

/-- The links a page visit checks (`linkChecker.ts:107-113`): extract (the
structural path — `DOMParser` is available in the browser), deduplicate,
and in single-page mode cap at 25. -/
def pageLinksToCheck (cfg : CrawlConfig) (html url : String) : List String :=
  let links := extractLinks true html url
  let uniqueLinks := dedupKeepFirst links
  if cfg.recursive then uniqueLinks else uniqueLinks.take 25

/-- Processing of one dequeued, not-yet-visited page: the `try` block of
the crawl loop (`linkChecker.ts:48-176`), applied to the state `s1` in
which the page was already marked visited.  `none` models divergence of
the inner batch loop (provably unreachable at the fixed batch size 3). -/
def crawlProcessPage (env : NetEnv) (cfg : CrawlConfig) (now : Nat)
    (entry : PageEntry) (s1 : CrawlState) : Option CrawlState :=
  let tp := tryProxies env corsProxies entry.url
  match tp.2 with
  | none =>
    -- all proxies failed: the page-level error handler
    -- (`linkChecker.ts:166-176`) recovers and advances the counter
    some { s1 with trace := s1.trace ++ tp.1, checkedPages := s1.checkedPages + 1 }
  | some (proxy, html) =>
    let linksToCheck := pageLinksToCheck cfg html entry.url
    if linksToCheck.isEmpty then
      some { s1 with trace := s1.trace ++ tp.1
                     proxyUsed := proxy
                     checkedPages := s1.checkedPages + 1 }
    else
      match checkLinksInBatches env linksToCheck 3 proxy (some entry.url) none now with
      | none => none
      | some bo =>
        match bo.outcome with
        | .error _ => none -- unreachable: the signal is unset within the iteration
        | .ok results =>
          let s2 : CrawlState := { s1 with
            trace := s1.trace ++ tp.1 ++ bo.trace
            proxyUsed := proxy
            results := s1.results ++ results
            checkedPages := s1.checkedPages + 1 }
          let newPages := (results.filter (crawlPageFilter cfg.baseDomain)).map
            (fun r => PageEntry.mk r.url (entry.depth + 1))
          if cfg.recursive && decide (entry.depth < cfg.maxDepth) then
            some { s2 with queue := s2.queue ++ newPages }
          else some s2

/-- One iteration of the crawl's `while` loop (`linkChecker.ts:39-177`)
under an unset-within-the-iteration signal: dequeue, skip if visited
(`linkChecker.ts:42-44`), else mark visited and process the page. -/
def crawlStep (env : NetEnv) (cfg : CrawlConfig) (now : Nat) (s : CrawlState) :
    Option CrawlState :=
  match s.queue with
  | [] => some s
  | entry :: rest =>
    if entry.url ∈ s.visited then some { s with queue := rest }
    else crawlProcessPage env cfg now entry
      { s with queue := rest, visited := entry.url :: s.visited }

/-- The crawl loop runner: observes the signal once per iteration
(`linkChecker.ts:39`), and once more after the queue drains
(`linkChecker.ts:179`); one fuel unit per iteration. -/
def crawlRunSig (env : NetEnv) (cfg : CrawlConfig) (now : Nat) (sig : Nat → Bool) :
    Nat → Nat → CrawlState → Option (Except Cancelled CrawlState)
  | 0, _, _ => none
  | fuel + 1, iter, s =>
    match s.queue with
    | [] => some (if sig iter then .error .abort else .ok s)
    | _ :: _ =>
      if sig iter then some (.error .abort)
      else
        match crawlStep env cfg now s with
        | none => none
        | some s2 => crawlRunSig env cfg now sig fuel (iter + 1) s2

/-- Errors `checkLinks` surfaces to its caller: the distinct cancellation
outcome, or the initial `new URL(url)` parse failure
(`linkChecker.ts:26`, rethrown at `linkChecker.ts:203`). -/
inductive CrawlError where
  | cancelled
  | invalidStart
  deriving Repr, DecidableEq

def initCrawlState (url : String) : CrawlState :=
  { queue := [⟨url, 0⟩], visited := [], results := [], checkedPages := 0
    proxyUsed := "", trace := [] }

/-- Shallow embedding of `checkLinks` (`linkChecker.ts:5-205`): parses the
start URL (its hostname becomes the same-site filter's base domain), runs
the crawl loop, and surfaces cancellation distinctly.  `none` means the
given fuel did not cover the crawl's iterations. -/
def checkLinks (env : NetEnv) (url : String) (recursive : Bool) (maxDepth : Nat)
    (sig : Option (Nat → Bool)) (now fuel : Nat) :
    Option (Except CrawlError CrawlState) :=
  match parseUrl url with
  | none => some (.error .invalidStart)
  | some b =>
    match crawlRunSig env ⟨recursive, maxDepth, b.host⟩ now (sigOf sig) fuel 0
        (initCrawlState url) with
    | none => none
    | some (.error .abort) => some (.error .cancelled)
    | some (.ok s) => some (.ok s)

/-- States of one crawl invocation reachable from a given state by crawl
loop iterations. -/
inductive CrawlReachable (env : NetEnv) (cfg : CrawlConfig) (now : Nat) :
    CrawlState → CrawlState → Prop
  | refl (s : CrawlState) : CrawlReachable env cfg now s s
  | step {s t u : CrawlState} : CrawlReachable env cfg now s t →
      crawlStep env cfg now t = some u → CrawlReachable env cfg now s u

/-- The exact request-target string of the verifier's requests: proxy
prefix concatenated with the percent-encoded cache-busted URL
(`linkChecker.ts:318-324`); `none` when the URL does not parse. -/
def proxiedTarget (url proxyUsed : String) (now : Nat) : Option String :=
  (addCacheBuster url now).map fun cb => proxyUsed ++ encodeURIComponent cb

/-- An environment in which every page fetch fails and every link request
gets a plain 200 response. -/
def trivialNetEnv : NetEnv :=
  { fetchPage := fun _ => none
    head := fun _ => .resp 200 "OK"
    get := fun _ => .resp 200 "OK" }

/-- An environment with a fixed HEAD outcome and a fixed GET outcome for
every link request. -/
def outcomeEnv (h g : FetchOutcome) : NetEnv :=
  { fetchPage := fun _ => none
    head := fun _ => h
    get := fun _ => g }

/-! ## Evaluation lemmas for the verifier -/

/-- Closed-form evaluation of the verifier's result under an unset
signal, by cases on the network oracles. -/
theorem verifyLink_eq (env : NetEnv) (url proxyUsed : String)
    (sp : Option String) (now : Nat) :
    verifyLink env url proxyUsed sp now =
      match addCacheBuster url now with
      | none => mkFailResult url sp (.err invalidUrlMessage)
      | some cb =>
        match env.head (proxyUsed ++ encodeURIComponent cb) with
        | .resp st stxt => mkRespResult url sp st stxt
        | .fail _ =>
          match env.get (proxyUsed ++ encodeURIComponent cb) with
          | .resp st stxt => mkRespResult url sp st stxt
          | .fail e2 => mkFailResult url sp e2 := by
  unfold verifyLink checkSingleLink
  simp only [Bool.false_eq_true, if_false]
  cases hcb : addCacheBuster url now with
  | none => rfl
  | some cb =>
    try dsimp only
    cases hh : env.head (proxyUsed ++ encodeURIComponent cb) with
    | resp st stxt => rfl
    | fail e =>
      try dsimp only
      cases hg : env.get (proxyUsed ++ encodeURIComponent cb) with
      | resp st stxt => rfl
      | fail e2 => rfl

/-- Closed-form evaluation of the verifier's request trace under an unset
signal. -/
theorem checkSingleLink_trace_eq (env : NetEnv) (url proxyUsed : String)
    (sp : Option String) (now : Nat) :
    (checkSingleLink env url proxyUsed sp false now).2 =
      match proxiedTarget url proxyUsed now with
      | none => []
      | some t =>
        match env.head t with
        | .resp _ _ => [⟨"HEAD", t⟩]
        | .fail _ => [⟨"HEAD", t⟩, ⟨"GET", t⟩] := by
  unfold checkSingleLink proxiedTarget
  simp only [Bool.false_eq_true, if_false]
  cases hcb : addCacheBuster url now with
  | none => rfl
  | some cb =>
    simp only [Option.map_some']
    try dsimp only
    cases hh : env.head (proxyUsed ++ encodeURIComponent cb) with
    | resp st stxt => rfl
    | fail e =>
      try dsimp only
      cases hg : env.get (proxyUsed ++ encodeURIComponent cb) with
      | resp st stxt => rfl
      | fail e2 => rfl

/-! ## Claims about the Single-Link Verifier -/

/-- C10: for every input URL, the `LinkCheckResult` produced by
`checkSingleLink` under an unset signal has its `url` field equal to the
input URL string exactly as given, on both the completed-response and the
transport-failure path, while every actually issued request is addressed to
the proxy-prefixed, percent-encoded, cache-busted variant of the URL — the
proxy prefix and cache-buster never leak into the reported `url`. -/
theorem c10_verifier_reports_input_url (env : NetEnv) (url proxyUsed : String)
    (sp : Option String) (now : Nat) :
    (checkSingleLink env url proxyUsed sp false now).1 =
        .ok (verifyLink env url proxyUsed sp now) ∧
    (verifyLink env url proxyUsed sp now).url = url ∧
    ∀ req ∈ (checkSingleLink env url proxyUsed sp false now).2,
      ∃ t, proxiedTarget url proxyUsed now = some t ∧ req.target = t := by
  refine ⟨checkSingleLink_unset_ok _ _ _ _ _, verifyLink_url _ _ _ _ _, ?_⟩
  intro req hreq
  rw [checkSingleLink_trace_eq] at hreq
  cases hpt : proxiedTarget url proxyUsed now with
  | none => rw [hpt] at hreq; simp at hreq
  | some t =>
    rw [hpt] at hreq
    dsimp only at hreq
    refine ⟨t, rfl, ?_⟩
    cases hh : env.head t with
    | resp st stxt =>
      rw [hh] at hreq
      simp at hreq
      rw [hreq]
    | fail e =>
      rw [hh] at hreq
      simp at hreq
      rcases hreq with h | h <;> rw [h]

/-- Witness for C10 at a concrete URL and environment. -/
theorem c10_verifier_reports_input_url_witness :
    (verifyLink trivialNetEnv "http://e.com/a" "p" none 0).url = "http://e.com/a" ∧
    ∃ t, proxiedTarget "http://e.com/a" "p" 0 = some t ∧
      (Request.mk "HEAD" ("p" ++ encodeURIComponent "http://e.com/a?_cb=0")).target = t :=
  ⟨(c10_verifier_reports_input_url trivialNetEnv "http://e.com/a" "p" none 0).2.1,
   (c10_verifier_reports_input_url trivialNetEnv "http://e.com/a" "p" none 0).2.2 _
     (by decide)⟩

/-- C5: with an unset signal the verifier never raises, and the result is
determined by the transport outcome: a completed HTTP response (from HEAD,
or from GET after HEAD failed) gives `isWorking = (status indicates
success)`, `statusCode = status`, and `error` absent iff working (else
`"<status> <statusText>"`); no completed response gives `isWorking = false`,
no status code, and `error` `"Request timeout"` for a timeout abort, else
the underlying error's message, else `"Connection failed"`. -/
theorem c5_verifier_outcomes (env : NetEnv) (url proxyUsed : String)
    (sp : Option String) (now : Nat) :
    (∃ r, (checkSingleLink env url proxyUsed sp false now).1 = .ok r) ∧
    (∀ t, proxiedTarget url proxyUsed now = some t →
      (∀ st stxt, env.head t = .resp st stxt →
        (verifyLink env url proxyUsed sp now).isWorking = respOk st ∧
        (verifyLink env url proxyUsed sp now).statusCode = some st ∧
        (verifyLink env url proxyUsed sp now).error =
          (if respOk st then none else some (toString st ++ " " ++ stxt))) ∧
      (∀ e st stxt, env.head t = .fail e → env.get t = .resp st stxt →
        (verifyLink env url proxyUsed sp now).isWorking = respOk st ∧
        (verifyLink env url proxyUsed sp now).statusCode = some st ∧
        (verifyLink env url proxyUsed sp now).error =
          (if respOk st then none else some (toString st ++ " " ++ stxt))) ∧
      (∀ e e2, env.head t = .fail e → env.get t = .fail e2 →
        (verifyLink env url proxyUsed sp now).isWorking = false ∧
        (verifyLink env url proxyUsed sp now).statusCode = none ∧
        (verifyLink env url proxyUsed sp now).error = some (match e2 with
          | .abortError => "Request timeout"
          | .err m => m
          | .nonError => "Connection failed"))) ∧
    (proxiedTarget url proxyUsed now = none →
      (verifyLink env url proxyUsed sp now).isWorking = false ∧
      (verifyLink env url proxyUsed sp now).statusCode = none ∧
      (verifyLink env url proxyUsed sp now).error = some invalidUrlMessage) := by
  refine ⟨⟨_, checkSingleLink_unset_ok _ _ _ _ _⟩, ?_, ?_⟩
  · intro t ht
    unfold proxiedTarget at ht
    cases hcb : addCacheBuster url now with
    | none => rw [hcb] at ht; simp at ht
    | some cb =>
      rw [hcb] at ht
      simp only [Option.map_some', Option.some.injEq] at ht
      subst ht
      refine ⟨?_, ?_, ?_⟩
      · intro st stxt hh
        rw [verifyLink_eq, hcb]
        dsimp only
        rw [hh]
        exact ⟨rfl, rfl, rfl⟩
      · intro e st stxt hh hg
        rw [verifyLink_eq, hcb]
        dsimp only
        rw [hh]
        dsimp only
        rw [hg]
        exact ⟨rfl, rfl, rfl⟩
      · intro e e2 hh hg
        rw [verifyLink_eq, hcb]
        dsimp only
        rw [hh]
        dsimp only
        rw [hg]
        refine ⟨rfl, rfl, ?_⟩
        cases e2 <;> rfl
  · intro ht
    unfold proxiedTarget at ht
    cases hcb : addCacheBuster url now with
    | some cb => rw [hcb] at ht; simp at ht
    | none =>
      rw [verifyLink_eq, hcb]
      exact ⟨rfl, rfl, rfl⟩

/-- Witness for C5: a 404 HEAD response and a double transport timeout,
each at a concrete URL. -/
theorem c5_verifier_outcomes_witness :
    ((verifyLink (outcomeEnv (.resp 404 "Not Found") (.resp 404 "Not Found"))
        "http://e.com/a" "p" none 0).isWorking = respOk 404 ∧
     (verifyLink (outcomeEnv (.resp 404 "Not Found") (.resp 404 "Not Found"))
        "http://e.com/a" "p" none 0).statusCode = some 404 ∧
     (verifyLink (outcomeEnv (.resp 404 "Not Found") (.resp 404 "Not Found"))
        "http://e.com/a" "p" none 0).error =
       (if respOk 404 then none else some (toString 404 ++ " " ++ "Not Found"))) ∧
    ((verifyLink (outcomeEnv (.fail .abortError) (.fail .abortError))
        "http://e.com/a" "p" none 0).isWorking = false ∧
     (verifyLink (outcomeEnv (.fail .abortError) (.fail .abortError))
        "http://e.com/a" "p" none 0).statusCode = none ∧
     (verifyLink (outcomeEnv (.fail .abortError) (.fail .abortError))
        "http://e.com/a" "p" none 0).error = some "Request timeout") :=
  ⟨((c5_verifier_outcomes (outcomeEnv (.resp 404 "Not Found") (.resp 404 "Not Found"))
      "http://e.com/a" "p" none 0).2.1
      ("p" ++ encodeURIComponent "http://e.com/a?_cb=0") (by decide)).1 404 "Not Found" rfl,
   ((c5_verifier_outcomes (outcomeEnv (.fail .abortError) (.fail .abortError))
      "http://e.com/a" "p" none 0).2.1
      ("p" ++ encodeURIComponent "http://e.com/a?_cb=0") (by decide)).2.2 .abortError .abortError
      rfl rfl⟩

/-- C6: the verifier issues a HEAD request first, retries with a GET to the
exact same proxied target iff the HEAD attempt threw (and cancellation was
not the cause — here the signal is unset), and never retries a HEAD attempt
that completed with an HTTP response of any status. -/
theorem c6_head_first_get_on_throw (env : NetEnv) (url proxyUsed : String)
    (sp : Option String) (now : Nat) (t : String)
    (ht : proxiedTarget url proxyUsed now = some t) :
    ((checkSingleLink env url proxyUsed sp false now).2.head? = some ⟨"HEAD", t⟩) ∧
    ((⟨"GET", t⟩ : Request) ∈ (checkSingleLink env url proxyUsed sp false now).2 ↔
      ∃ e, env.head t = .fail e) ∧
    (∀ st stxt, env.head t = .resp st stxt →
      (checkSingleLink env url proxyUsed sp false now).2 = [⟨"HEAD", t⟩]) ∧
    (∀ e, env.head t = .fail e →
      (checkSingleLink env url proxyUsed sp false now).2 = [⟨"HEAD", t⟩, ⟨"GET", t⟩]) := by
  have htr := checkSingleLink_trace_eq env url proxyUsed sp now
  rw [ht] at htr
  dsimp only at htr
  cases hh : env.head t with
  | resp st stxt =>
    rw [hh] at htr
    dsimp only at htr
    rw [htr]
    refine ⟨rfl, ?_, ?_, ?_⟩
    · constructor
      · intro hmem
        exfalso
        rw [List.mem_singleton] at hmem
        have hms : "GET" = "HEAD" := congrArg Request.method hmem
        simp at hms
      · rintro ⟨e, he⟩
        cases he
    · intro st2 stxt2 hr
      rfl
    · intro e2 he2
      cases he2
  | fail e =>
    rw [hh] at htr
    dsimp only at htr
    rw [htr]
    refine ⟨rfl, ?_, ?_, ?_⟩
    · constructor
      · intro _
        exact ⟨e, rfl⟩
      · intro _
        simp
    · intro st2 stxt2 hr
      cases hr
    · intro e2 he2
      rfl

/-- Witness for C6: HEAD throws a transport error, GET then gets a 200, at
a concrete URL and proxy. -/
theorem c6_head_first_get_on_throw_witness :
    ((checkSingleLink (outcomeEnv (.fail (.err "boom")) (.resp 200 "OK"))
        "http://e.com/a" "p" none false 0).2.head? =
      some ⟨"HEAD", "p" ++ encodeURIComponent "http://e.com/a?_cb=0"⟩) ∧
    ((checkSingleLink (outcomeEnv (.fail (.err "boom")) (.resp 200 "OK"))
        "http://e.com/a" "p" none false 0).2 =
      [⟨"HEAD", "p" ++ encodeURIComponent "http://e.com/a?_cb=0"⟩,
       ⟨"GET", "p" ++ encodeURIComponent "http://e.com/a?_cb=0"⟩]) :=
  ⟨(c6_head_first_get_on_throw (outcomeEnv (.fail (.err "boom")) (.resp 200 "OK"))
      "http://e.com/a" "p" none 0
      ("p" ++ encodeURIComponent "http://e.com/a?_cb=0") (by decide)).1,
   (c6_head_first_get_on_throw (outcomeEnv (.fail (.err "boom")) (.resp 200 "OK"))
      "http://e.com/a" "p" none 0
      ("p" ++ encodeURIComponent "http://e.com/a?_cb=0") (by decide)).2.2.2 (.err "boom") rfl⟩

/-! ## Claims about the Batch Scheduler -/

theorem map_url_map_verifyLink (env : NetEnv) (proxyUsed : String)
    (sp : Option String) (now : Nat) : ∀ links : List String,
    ((links.map fun l => verifyLink env l proxyUsed sp now).map fun r => r.url) = links := by
  intro links
  induction links with
  | nil => rfl
  | cons a as ih =>
    simp [verifyLink_url, ih]

/-- C1 counterexample: with batch size `0` and a non-empty link list the
source `for` loop (`linkChecker.ts:277`) advances its index by `0` and so
never terminates — the embedding returns `none` (fuel exhaustion), i.e.
`checkLinksInBatches` does not return one result per input URL.  The second
conjunct exhibits the non-progress: one whole loop iteration leaves the
index at `0` and the accumulated results empty, only recording an empty
emitted window. -/
theorem c1_counterexample :
    checkLinksInBatches trivialNetEnv ["http://a.com/"] 0 "" none none 0 = none ∧
    runBatchesFuel trivialNetEnv ["http://a.com/"] 0 "" none (fun _ => false) 0
        2 0 [] [] [] =
      runBatchesFuel trivialNetEnv ["http://a.com/"] 0 "" none (fun _ => false) 0
        1 0 [] [[]] [] :=
  ⟨rfl, rfl⟩

/-- C1 (amended: for every *positive* batch size): for every input URL
list, every positive batch size and every assignment of verification
outcomes, `checkLinksInBatches` under an unset signal returns exactly one
`LinkCheckResult` per input URL, with the sequence of `url` fields equal to
the input list in order (the embedding of `Promise.all` settles each window
in the window's input order regardless of completion order). -/
theorem c1_batches_one_result_per_url (env : NetEnv) (links : List String)
    (bs : Nat) (proxyUsed : String) (sp : Option String) (now : Nat) (hb : 0 < bs) :
    ∃ out res, checkLinksInBatches env links bs proxyUsed sp none now = some out ∧
      out.outcome = .ok res ∧ res.length = links.length ∧
      (res.map fun r => r.url) = links := by
  obtain ⟨out, hrun, hout⟩ := runBatchesFuel_unset_ok env links bs proxyUsed sp
    (fun _ => false) now (fun _ => rfl) hb (links.length + 1) 0 [] [] [] (by omega)
  simp only [List.drop_zero, List.nil_append] at hout
  refine ⟨out, links.map fun l => verifyLink env l proxyUsed sp now, ?_, hout, ?_, ?_⟩
  · unfold checkLinksInBatches
    exact hrun
  · simp
  · exact map_url_map_verifyLink env proxyUsed sp now links

/-- Witness for the amended C1 at a concrete one-element list and batch
size 1. -/
theorem c1_batches_one_result_per_url_witness :
    ∃ out res,
      checkLinksInBatches trivialNetEnv ["http://a.com/x"] 1 "" none none 0 = some out ∧
      out.outcome = .ok res ∧ res.length = ["http://a.com/x"].length ∧
      (res.map fun r => r.url) = ["http://a.com/x"] :=
  c1_batches_one_result_per_url trivialNetEnv ["http://a.com/x"] 1 "" none 0 (by decide)

/-- A crawl loop iteration with a non-empty queue that observes the signal
set throws `AbortError` (`linkChecker.ts:39` and `linkChecker.ts:179`). -/
theorem crawlRunSig_abort (env : NetEnv) (cfg : CrawlConfig) (now : Nat)
    (sig : Nat → Bool) (fuel iter : Nat) (s : CrawlState)
    (hq : s.queue ≠ []) (hs : sig iter = true) :
    crawlRunSig env cfg now sig (fuel + 1) iter s = some (.error .abort) := by
  rw [crawlRunSig.eq_def]
  cases hqq : s.queue with
  | nil => exact absurd hqq hq
  | cons a rest =>
    dsimp only
    rw [hqq, hs]
    rfl

/-- C4: cancellation.  First conjunct (Batch Scheduler): if the signal is
first observed set before window `w` (a window that exists), the loop
throws the distinct `AbortError` having emitted exactly the results of
windows `0..w-1` and having issued requests for exactly those windows'
links — none of window `w`'s URLs are verified, and no result list is
returned.  Second conjunct (Crawler): `checkLinks` under a set signal
surfaces the distinct cancellation outcome rather than link data. -/
theorem c4_cancellation_observed :
    (∀ (env : NetEnv) (links : List String) (bs : Nat) (proxyUsed : String)
       (sp : Option String) (now : Nat) (sig : Nat → Bool) (w : Nat),
      0 < bs → sig w = true → (∀ j, j < w → sig j = false) → w * bs < links.length →
      checkLinksInBatches env links bs proxyUsed sp (some sig) now =
        some ⟨.error .abort,
          (List.range w).map (windowResults env links bs proxyUsed sp now),
          ((links.take (w * bs)).map fun l => verifyTrace env l proxyUsed sp now).flatten⟩) ∧
    (∀ (env : NetEnv) (url : String) (recFlag : Bool) (maxDepth : Nat)
       (sig : Nat → Bool) (now fuel : Nat) (b : UrlRec),
      parseUrl url = some b → sig 0 = true →
      checkLinks env url recFlag maxDepth (some sig) now (fuel + 1) =
        some (.error .cancelled)) := by
  constructor
  · intro env links bs proxyUsed sp now sig w hb hw hlt hstart
    have hfuel : w < links.length + 1 := by
      have hle : w ≤ w * bs := Nat.le_mul_of_pos_right w hb
      omega
    have h := runBatchesFuel_abort env links bs proxyUsed sp sig now w hb hw hlt hstart
      w 0 (links.length + 1) [] [] [] (by omega) rfl hfuel
    simp only [Nat.zero_mul, List.drop_zero, List.nil_append] at h
    unfold checkLinksInBatches
    rw [sigOf_some, List.range_eq_range']
    exact h
  · intro env url recFlag maxDepth sig now fuel b hparse hsig0
    unfold checkLinks
    rw [hparse, sigOf_some]
    dsimp only
    rw [crawlRunSig_abort env ⟨recFlag, maxDepth, b.host⟩ now sig fuel 0 (initCrawlState url)
          (by simp [initCrawlState]) hsig0]

/-- Witness for C4: a signal first set before window 1 of a two-link batch
run, and a crawl started under an already-set signal. -/
theorem c4_cancellation_observed_witness :
    (checkLinksInBatches trivialNetEnv ["http://a.com/x", "http://a.com/y"] 1 "" none
        (some fun k => decide (1 ≤ k)) 0 =
      some ⟨.error .abort,
        (List.range 1).map (windowResults trivialNetEnv
          ["http://a.com/x", "http://a.com/y"] 1 "" none 0),
        ((["http://a.com/x", "http://a.com/y"].take (1 * 1)).map
          fun l => verifyTrace trivialNetEnv l "" none 0).flatten⟩) ∧
    (checkLinks trivialNetEnv "http://e.com/" false 3 (some fun _ => true) 0 1 =
      some (.error .cancelled)) :=
  ⟨c4_cancellation_observed.1 trivialNetEnv ["http://a.com/x", "http://a.com/y"] 1 "" none 0
      (fun k => decide (1 ≤ k)) 1 (by decide) rfl
      (fun j hj => by
        have hj0 : j = 0 := Nat.lt_one_iff.mp hj
        rw [hj0]
        rfl)
      (by decide),
   c4_cancellation_observed.2 trivialNetEnv "http://e.com/" false 3 (fun _ => true) 0 0
      ⟨"http", true, "e.com", "/", none, none⟩ (by decide) rfl⟩

/-! ## Claims about the Site Crawler -/

/-- A batch run at the crawl's fixed batch size 3 under an unset signal
returns exactly the per-link verifier results in input order. -/
theorem batches3_results (env : NetEnv) (links : List String) (proxyUsed : String)
    (sp : Option String) (now : Nat) (bo : BatchOut) (results : List LinkCheckResult)
    (hcb : checkLinksInBatches env links 3 proxyUsed sp none now = some bo)
    (hbo : bo.outcome = Except.ok results) :
    results = links.map fun l => verifyLink env l proxyUsed sp now := by
  obtain ⟨out, hrun, hout⟩ := runBatchesFuel_unset_ok env links 3 proxyUsed sp
    (fun _ => false) now (fun _ => rfl) (by omega) (links.length + 1) 0 [] [] [] (by omega)
  unfold checkLinksInBatches at hcb
  rw [sigOf_none] at hcb
  rw [hrun] at hcb
  injection hcb with hcb
  subst hcb
  rw [hout] at hbo
  injection hbo with hbo
  subst hbo
  simp

/-- What one page visit does to the crawl state: the visited set is
untouched, the queue only gains entries at the end (none in single-page
mode), and every appended result is tagged with the visited page as its
source. -/
theorem crawlProcessPage_state (env : NetEnv) (cfg : CrawlConfig) (now : Nat)
    (entry : PageEntry) (s1 t : CrawlState)
    (h : crawlProcessPage env cfg now entry s1 = some t) :
    t.visited = s1.visited ∧
    ∃ added appended, t.queue = s1.queue ++ added ∧ t.results = s1.results ++ appended ∧
      (∀ r ∈ appended, r.sourcePage = some entry.url) ∧
      (cfg.recursive = false → added = []) := by
  unfold crawlProcessPage at h
  dsimp only at h
  cases htp : (tryProxies env corsProxies entry.url).2 with
  | none =>
    rw [htp] at h
    dsimp only at h
    injection h with h
    subst h
    exact ⟨rfl, [], [], by simp, by simp, by simp, fun _ => rfl⟩
  | some ph =>
    rw [htp] at h
    dsimp only at h
    split at h
    · injection h with h
      subst h
      exact ⟨rfl, [], [], by simp, by simp, by simp, fun _ => rfl⟩
    · cases hcb : checkLinksInBatches env (pageLinksToCheck cfg ph.2 entry.url) 3 ph.1
          (some entry.url) none now with
      | none => rw [hcb] at h; cases h
      | some bo =>
        rw [hcb] at h
        dsimp only at h
        cases hbo : bo.outcome with
        | error e => rw [hbo] at h; cases h
        | ok results =>
          rw [hbo] at h
          dsimp only at h
          have hres := batches3_results env _ ph.1 (some entry.url) now bo results hcb hbo
          have hsp : ∀ r ∈ results, r.sourcePage = some entry.url := by
            intro r hr
            rw [hres] at hr
            obtain ⟨l, _, hl⟩ := List.mem_map.mp hr
            rw [← hl]
            exact verifyLink_sourcePage env l ph.1 (some entry.url) now
          split at h
          · injection h with h
            subst h
            refine ⟨rfl, _, results, rfl, rfl, hsp, ?_⟩
            intro hrec
            next hcond =>
              rw [hrec] at hcond
              simp at hcond
          · injection h with h
            subst h
            exact ⟨rfl, [], results, by simp, rfl, hsp, fun _ => rfl⟩

/-- The visited list never loses entries and stays duplicate-free across
one crawl iteration. -/
theorem crawlStep_nodup (env : NetEnv) (cfg : CrawlConfig) (now : Nat)
    (s t : CrawlState) (h : crawlStep env cfg now s = some t)
    (hnd : s.visited.Nodup) : t.visited.Nodup := by
  unfold crawlStep at h
  cases hq : s.queue with
  | nil =>
    rw [hq] at h
    injection h with h
    subst h
    exact hnd
  | cons entry rest =>
    rw [hq] at h
    dsimp only at h
    split at h
    · injection h with h
      subst h
      exact hnd
    · next hmem =>
      have := (crawlProcessPage_state env cfg now entry _ t h).1
      rw [this]
      exact List.nodup_cons.mpr ⟨hmem, hnd⟩

/-- C2: a dequeued entry whose URL is already in the visited set is a pure
skip — the iteration only pops the queue, with no fetch, no appended
result, no counter increment and no enqueue — and consequently, in every
state reachable from the start of a crawl, the visited set holds each page
URL at most once even when the queue carries duplicate pending entries. -/
theorem c2_no_revisit :
    (∀ (env : NetEnv) (cfg : CrawlConfig) (now : Nat) (s : CrawlState)
       (entry : PageEntry) (rest : List PageEntry),
      s.queue = entry :: rest → entry.url ∈ s.visited →
      crawlStep env cfg now s = some { s with queue := rest }) ∧
    (∀ (env : NetEnv) (cfg : CrawlConfig) (now : Nat) (url : String) (t : CrawlState),
      CrawlReachable env cfg now (initCrawlState url) t → t.visited.Nodup) := by
  constructor
  · intro env cfg now s entry rest hq hmem
    unfold crawlStep
    rw [hq]
    dsimp only
    rw [if_pos hmem]
  · intro env cfg now url t hreach
    induction hreach with
    | refl => exact List.nodup_nil
    | step _ hstep ih => exact crawlStep_nodup _ _ _ _ _ hstep ih

/-- Witness for C2: a concrete state whose head entry is already visited
(with a duplicate pending entry behind it), and the initial state itself. -/
theorem c2_no_revisit_witness :
    crawlStep trivialNetEnv ⟨true, 3, "e.com"⟩ 0
        ⟨[⟨"http://e.com/", 1⟩, ⟨"http://e.com/", 2⟩], ["http://e.com/"], [], 1, "", []⟩ =
      some ⟨[⟨"http://e.com/", 2⟩], ["http://e.com/"], [], 1, "", []⟩ ∧
    (initCrawlState "http://e.com/").visited.Nodup :=
  ⟨c2_no_revisit.1 trivialNetEnv ⟨true, 3, "e.com"⟩ 0
      ⟨[⟨"http://e.com/", 1⟩, ⟨"http://e.com/", 2⟩], ["http://e.com/"], [], 1, "", []⟩
      ⟨"http://e.com/", 1⟩ [⟨"http://e.com/", 2⟩] rfl (by simp),
   c2_no_revisit.2 trivialNetEnv ⟨true, 3, "e.com"⟩ 0 "http://e.com/" _
     (CrawlReachable.refl _)⟩

/-- One non-recursive crawl iteration: the queue only shrinks (no enqueue
in single-page mode) and every appended result is tagged with the dequeued
page's URL. -/
theorem crawlStep_nonrec (env : NetEnv) (cfg : CrawlConfig) (now : Nat)
    (s t : CrawlState) (entry : PageEntry) (rest : List PageEntry)
    (hrec : cfg.recursive = false) (hq : s.queue = entry :: rest)
    (h : crawlStep env cfg now s = some t) :
    t.queue = rest ∧ ∃ appended, t.results = s.results ++ appended ∧
      ∀ r ∈ appended, r.sourcePage = some entry.url := by
  unfold crawlStep at h
  rw [hq] at h
  dsimp only at h
  split at h
  · injection h with h
    subst h
    exact ⟨rfl, [], by simp, by simp⟩
  · obtain ⟨_, added, appended, hqueue, hresults, hsp, hadded⟩ :=
      crawlProcessPage_state env cfg now entry _ t h
    rw [hadded hrec] at hqueue
    simp only [List.append_nil] at hqueue
    exact ⟨hqueue, appended, hresults, hsp⟩

/-- Invariant for a whole non-recursive crawl run: if every pending entry
is the start URL, every produced result's `sourcePage` is the start URL. -/
theorem crawlRun_nonrec_inv (env : NetEnv) (cfg : CrawlConfig) (now : Nat)
    (url : String) (hrec : cfg.recursive = false) :
    ∀ (fuel iter : Nat) (s t : CrawlState),
      (∀ e ∈ s.queue, e.url = url) → (∀ r ∈ s.results, r.sourcePage = some url) →
      crawlRunSig env cfg now (fun _ => false) fuel iter s = some (.ok t) →
      ∀ r ∈ t.results, r.sourcePage = some url := by
  intro fuel
  induction fuel with
  | zero => intro iter s t _ _ h; cases h
  | succ fuel ih =>
    intro iter s t hqinv hrinv h
    rw [crawlRunSig.eq_def] at h
    dsimp only at h
    cases hq : s.queue with
    | nil =>
      rw [hq] at h
      dsimp only at h
      injection h with h
      injection h with h
      subst h
      exact hrinv
    | cons entry rest =>
      rw [hq] at h
      dsimp only at h
      cases hcs : crawlStep env cfg now s with
      | none => rw [hcs] at h; cases h
      | some s2 =>
        rw [hcs] at h
        dsimp only at h
        obtain ⟨hq2, appended, hres2, hsp2⟩ :=
          crawlStep_nonrec env cfg now s s2 entry rest hrec hq hcs
        have hurl : entry.url = url := hqinv entry (by rw [hq]; exact List.mem_cons_self _ _)
        refine ih (iter + 1) s2 t ?_ ?_ h
        · intro e he
          exact hqinv e (by rw [hq, hq2] at *; exact List.mem_cons_of_mem _ he)
        · intro r hr
          rw [hres2] at hr
          rcases List.mem_append.mp hr with hl | hl
          · exact hrinv r hl
          · rw [hsp2 r hl, hurl]

/-- C9 counterexample environment: the fetched page carries exactly one
link. -/
def oneLinkPageEnv : NetEnv :=
  { fetchPage := fun _ => some "<a href=\x22http://e.com/a\x22>x</a>"
    head := fun _ => .resp 200 "OK"
    get := fun _ => .resp 200 "OK" }

/-- The `sourcePage` fields of a crawl's returned results. -/
def crawlSourcePages (o : Option (Except CrawlError CrawlState)) : List (Option String) :=
  match o with
  | some (.ok s) => s.results.map fun r => r.sourcePage
  | _ => []

/-- C9 counterexample: a single-page (`recursive = false`) crawl of a page
with one link produces a result whose `sourcePage` is set (to the start
URL) — not absent as the claim states: `checkLinks` passes `currentUrl` as
`sourcePage` unconditionally (`linkChecker.ts:125-129`). -/
theorem c9_counterexample :
    crawlSourcePages (checkLinks oneLinkPageEnv "http://e.com/" false 3 none 0 2) =
      [some "http://e.com/"] := by
  decide

/-- C9 (amended): in single-page mode every returned result has
`sourcePage` present and equal to the start URL (the only page ever
visited); `sourcePage` is set in both modes, to the page on which the link
was found. -/
theorem c9_single_page_source (env : NetEnv) (url : String)
    (maxDepth now fuel : Nat) (b : UrlRec) (s : CrawlState)
    (hparse : parseUrl url = some b)
    (hrun : checkLinks env url false maxDepth none now fuel = some (.ok s)) :
    ∀ r ∈ s.results, r.sourcePage = some url := by
  unfold checkLinks at hrun
  rw [hparse, sigOf_none] at hrun
  dsimp only at hrun
  cases hcr : crawlRunSig env ⟨false, maxDepth, b.host⟩ now (fun _ => false) fuel 0
      (initCrawlState url) with
  | none => rw [hcr] at hrun; cases hrun
  | some r =>
    rw [hcr] at hrun
    cases r with
    | error e =>
      cases e
      dsimp only at hrun
      cases hrun
    | ok t =>
      dsimp only at hrun
      injection hrun with hrun
      injection hrun with hrun
      subst hrun
      exact crawlRun_nonrec_inv env ⟨false, maxDepth, b.host⟩ now url rfl fuel 0
        (initCrawlState url) t (by simp [initCrawlState]) (by simp [initCrawlState]) hcr

/-- Witness for the amended C9 at the concrete one-link crawl. -/
theorem c9_single_page_source_witness :
    ({ url := "http://e.com/a", isWorking := true, statusCode := some 200
       error := none, sourcePage := some "http://e.com/" } : LinkCheckResult).sourcePage =
      some "http://e.com/" :=
  c9_single_page_source oneLinkPageEnv "http://e.com/" 3 0 2
    ⟨"http", true, "e.com", "/", none, none⟩
    ⟨[], ["http://e.com/"],
     [⟨"http://e.com/a", true, some 200, none, some "http://e.com/"⟩], 1,
     "https://api.allorigins.win/raw?url=",
     [⟨"GET", "https://api.allorigins.win/raw?url=http%3A%2F%2Fe.com%2F"⟩,
      ⟨"HEAD", "https://api.allorigins.win/raw?url=http%3A%2F%2Fe.com%2Fa%3F_cb%3D0"⟩]⟩
    (by decide) (by rfl) _ (by simp)

/-- The enqueue filter in claim-level terms: working, parseable with the
start URL's hostname, and no excluded extension. -/
theorem crawlPageFilter_iff (bd : String) (r : LinkCheckResult) :
    crawlPageFilter bd r = true ↔
      r.isWorking = true ∧ (∃ u2, parseUrl r.url = some u2 ∧ u2.host = bd) ∧
      hasExcludedExtension r.url = false := by
  unfold crawlPageFilter
  cases hp : parseUrl r.url with
  | none => simp
  | some u2 => simp [Bool.and_eq_true, beq_iff_eq, Bool.not_eq_true']

/-- Membership in the freshly enqueued pages. -/
theorem mem_newPages_iff (bd : String) (d : Nat) (res : List LinkCheckResult)
    (e : PageEntry) :
    e ∈ (res.filter (crawlPageFilter bd)).map (fun r => PageEntry.mk r.url (d + 1)) ↔
      ∃ r ∈ res, r.isWorking = true ∧
        (∃ u2, parseUrl r.url = some u2 ∧ u2.host = bd) ∧
        hasExcludedExtension r.url = false ∧ e = ⟨r.url, d + 1⟩ := by
  rw [List.mem_map]
  constructor
  · rintro ⟨r, hr, he⟩
    rw [List.mem_filter] at hr
    obtain ⟨h1, h2, h3⟩ := (crawlPageFilter_iff bd r).mp hr.2
    exact ⟨r, hr.1, h1, h2, h3, he.symm⟩
  · rintro ⟨r, hr, h1, h2, h3, he⟩
    refine ⟨r, List.mem_filter.mpr ⟨hr, (crawlPageFilter_iff bd r).mpr ⟨h1, h2, h3⟩⟩, he.symm⟩

/-- C3: in a recursive crawl, a dequeued page at depth `d` enqueues a child
entry iff `d < maxDepth` and some link result of the page is working, its
URL parses with hostname equal to the start URL's hostname, and it does not
end in an excluded extension (the signal being unset throughout the
iteration); every enqueued child has depth exactly `d + 1`, and with
`maxDepth = 0` nothing is ever enqueued. -/
theorem c3_enqueue_iff (env : NetEnv) (cfg : CrawlConfig) (now : Nat)
    (s : CrawlState) (entry : PageEntry) (rest : List PageEntry)
    (proxy html : String)
    (hq : s.queue = entry :: rest)
    (hnv : entry.url ∉ s.visited)
    (hfetch : (tryProxies env corsProxies entry.url).2 = some (proxy, html))
    (hrec : cfg.recursive = true) :
    ∃ t, crawlStep env cfg now s = some t ∧
      ∃ added, t.queue = rest ++ added ∧
        (∀ e, e ∈ added ↔
          (entry.depth < cfg.maxDepth ∧
           ∃ r ∈ (pageLinksToCheck cfg html entry.url).map
               (fun l => verifyLink env l proxy (some entry.url) now),
             r.isWorking = true ∧
             (∃ u2, parseUrl r.url = some u2 ∧ u2.host = cfg.baseDomain) ∧
             hasExcludedExtension r.url = false ∧
             e = ⟨r.url, entry.depth + 1⟩)) ∧
        (∀ e ∈ added, e.depth = entry.depth + 1) ∧
        (cfg.maxDepth = 0 → added = []) := by
  unfold crawlStep
  rw [hq]
  dsimp only
  rw [if_neg hnv]
  unfold crawlProcessPage
  dsimp only
  rw [hfetch]
  dsimp only
  by_cases hL : (pageLinksToCheck cfg html entry.url).isEmpty
  · rw [if_pos hL]
    refine ⟨_, rfl, [], by simp, ?_, by simp, fun _ => rfl⟩
    intro e
    simp only [List.not_mem_nil, false_iff]
    rintro ⟨-, r, hr, -⟩
    rw [List.isEmpty_iff.mp hL] at hr
    simp at hr
  · rw [if_neg hL]
    obtain ⟨out, hrun, hout⟩ := runBatchesFuel_unset_ok env
      (pageLinksToCheck cfg html entry.url) 3 proxy (some entry.url)
      (fun _ => false) now (fun _ => rfl) (by omega)
      ((pageLinksToCheck cfg html entry.url).length + 1) 0 [] [] [] (by omega)
    have hcb : checkLinksInBatches env (pageLinksToCheck cfg html entry.url) 3 proxy
        (some entry.url) none now = some out := by
      unfold checkLinksInBatches
      rw [sigOf_none]
      exact hrun
    rw [hcb]
    dsimp only
    simp only [List.drop_zero, List.nil_append] at hout
    rw [hout]
    dsimp only
    rw [hrec]
    simp only [Bool.true_and]
    cases hd : decide (entry.depth < cfg.maxDepth) with
    | true =>
      simp only [if_true]
      have hdlt := of_decide_eq_true hd
      refine ⟨_, rfl, _, rfl, ?_, ?_, ?_⟩
      · intro e
        rw [mem_newPages_iff]
        constructor
        · intro hmem
          exact ⟨hdlt, hmem⟩
        · exact fun h => h.2
      · intro e he
        obtain ⟨r, -, -, -, -, hre⟩ := (mem_newPages_iff _ _ _ _).mp he
        rw [hre]
      · intro h0
        rw [h0] at hdlt
        omega
    | false =>
      simp only [Bool.false_eq_true, if_false]
      have hdge := of_decide_eq_false hd
      refine ⟨_, rfl, [], by simp, ?_, by simp, fun _ => rfl⟩
      intro e
      simp only [List.not_mem_nil, false_iff]
      rintro ⟨hlt, -⟩
      exact hdge hlt

/-- Witness for C3 at a concrete recursive crawl step: the page carries one
same-host link, `maxDepth = 1`, seed depth `0`. -/
theorem c3_enqueue_iff_witness :
    ∃ t, crawlStep oneLinkPageEnv ⟨true, 1, "e.com"⟩ 0
        (initCrawlState "http://e.com/") = some t ∧
      ∃ added, t.queue = [] ++ added ∧
        (∀ e, e ∈ added ↔
          ((⟨"http://e.com/", 0⟩ : PageEntry).depth < 1 ∧
           ∃ r ∈ (pageLinksToCheck ⟨true, 1, "e.com"⟩
                 "<a href=\x22http://e.com/a\x22>x</a>" "http://e.com/").map
               (fun l => verifyLink oneLinkPageEnv l "https://api.allorigins.win/raw?url="
                 (some "http://e.com/") 0),
             r.isWorking = true ∧
             (∃ u2, parseUrl r.url = some u2 ∧ u2.host = "e.com") ∧
             hasExcludedExtension r.url = false ∧
             e = ⟨r.url, (⟨"http://e.com/", 0⟩ : PageEntry).depth + 1⟩)) ∧
        (∀ e ∈ added, e.depth = (⟨"http://e.com/", 0⟩ : PageEntry).depth + 1) ∧
        ((1 : Nat) = 0 → added = []) :=
  c3_enqueue_iff oneLinkPageEnv ⟨true, 1, "e.com"⟩ 0 (initCrawlState "http://e.com/")
    ⟨"http://e.com/", 0⟩ [] "https://api.allorigins.win/raw?url="
    "<a href=\x22http://e.com/a\x22>x</a>" rfl (by simp [initCrawlState]) (by rfl) rfl

/-! ## Claims about the Link Extractor -/

/-- `Char.toLower` only moves code points into `97..122`; any character
outside that range equal to a `toLower` image was fixed by it. -/
theorem toLower_fix (c t : Char) (ht : t.toNat < 97 ∨ 122 < t.toNat)
    (h : Char.toLower c = t) : c = t := by
  simp only [Char.toLower] at h
  by_cases hc : c.toNat ≥ 65 ∧ c.toNat ≤ 90
  · rw [if_pos hc] at h
    exfalso
    have hv : (Char.ofNat (c.toNat + 32)).toNat = c.toNat + 32 := by
      have hvalid : Nat.isValidChar (c.toNat + 32) := by
        left
        omega
      rw [Char.ofNat, dif_pos hvalid]
      simp [Char.ofNatAux, Char.toNat, UInt32.toNat, BitVec.toNat_ofNatLt]
    rw [h] at hv
    omega
  · rw [if_neg hc] at h
    exact h

/-- Everything before the split point fails the predicate. -/
theorem splitAtChar_fst_prop (p : Char → Bool) :
    ∀ (l : List Char) (x : Char), x ∈ (splitAtChar p l).1 → p x = false := by
  intro l
  induction l with
  | nil => intro x hx; simp [splitAtChar] at hx
  | cons c cs ih =>
    intro x hx
    simp only [splitAtChar] at hx
    split at hx
    · simp at hx
    · next hpc =>
      rcases List.mem_cons.mp hx with h | h
      · subst h
        exact Bool.eq_false_iff.mpr hpc
      · exact ih x h

/-- The split's first component starts at the head of the input. -/
theorem splitAtChar_fst_head (p : Char → Bool) (l : List Char) (c : Char)
    (t : List Char) (h : (splitAtChar p l).1 = c :: t) : l.head? = some c := by
  cases l with
  | nil => simp [splitAtChar] at h
  | cons x xs =>
    simp only [splitAtChar] at h
    split at h
    · simp at h
    · injection h with h1 _
      rw [h1]
      rfl

/-- Shape of a successful absolute parse: the scheme is the lower-casing of
the input's leading scheme characters, and a special record's scheme is one
of the special schemes. -/
theorem parseUrl_shape (s : String) (r : UrlRec) (h : parseUrl s = some r) :
    ∃ c cs, s.data.head? = some c ∧ r.scheme.data = Char.toLower c :: cs ∧
      isSchemeChar c = true ∧ (r.special = true → r.scheme ∈ specialSchemes) := by
  unfold parseUrl at h
  dsimp only at h
  cases hsp1 : (splitAtChar (fun c => !isSchemeChar c) s.data).1 with
  | nil => rw [hsp1] at h; cases h
  | cons c schemeRest =>
    rw [hsp1] at h
    dsimp only at h
    have hhead := splitAtChar_fst_head _ _ _ _ hsp1
    have hscheme : isSchemeChar c = true := by
      have h0 := splitAtChar_fst_prop _ s.data c
        (by rw [hsp1]; exact List.mem_cons_self _ _)
      cases hb : isSchemeChar c
      · rw [hb] at h0; simp at h0
      · rfl
    refine ⟨c, ?_⟩
    split at h
    · split at h
      · next hmem =>
        split at h
        · split at h
          · cases h
          · injection h with h
            subst h
            exact ⟨_, hhead, rfl, hscheme, fun _ => hmem⟩
        · cases h
      · injection h with h
        subst h
        refine ⟨_, hhead, rfl, hscheme, fun hf => ?_⟩
        cases hf
    · cases h

/-- Shape of a successful resolution: the output serialises a record whose
scheme starts with the lower-casing of a scheme character; special records
carry special schemes; a relative resolution yields a special record; an
absolute resolution yields exactly the parse of the reference. -/
theorem resolveUrl_shape (href base u : String) (h : resolveUrl href base = some u) :
    ∃ r : UrlRec, u = urlToString r ∧
      (∃ c cs, r.scheme.data = Char.toLower c :: cs ∧ isSchemeChar c = true) ∧
      (r.special = true → r.scheme ∈ specialSchemes) ∧
      (parseUrl href = none → r.special = true) ∧
      (∀ r0, parseUrl href = some r0 → r = r0) := by
  unfold resolveUrl at h
  cases hph : parseUrl href with
  | some r0 =>
    rw [hph] at h
    injection h with h
    obtain ⟨c, cs, _, hsch, hchar, hspec⟩ := parseUrl_shape href r0 hph
    refine ⟨r0, h.symm, ⟨c, cs, hsch, hchar⟩, hspec, ?_, ?_⟩
    · intro hn
      cases hn
    · intro r1 h1
      cases h1
      rfl
  | none =>
    rw [hph] at h
    cases hpb : parseUrl base with
    | none => rw [hpb] at h; cases h
    | some b =>
      rw [hpb] at h
      dsimp only at h
      obtain ⟨cb, csb, _, hschb, hcharb, hspecb⟩ := parseUrl_shape base b hpb
      split at h
      · next hbs =>
        split at h
        · -- scheme-relative `//` reference
          split at h
          · cases h
          · injection h with h
            exact ⟨_, h.symm, ⟨cb, csb, hschb, hcharb⟩, fun _ => hspecb hbs,
              fun _ => rfl, fun r1 h1 => by cases h1⟩
        · -- path/query/fragment-relative references
          cases hd : href.data with
          | nil =>
            rw [hd] at h
            dsimp only at h
            injection h with h
            exact ⟨_, h.symm, ⟨cb, csb, hschb, hcharb⟩, fun hs => hspecb hs,
              fun _ => hbs, fun r1 h1 => by cases h1⟩
          | cons c0 restH =>
            rw [hd] at h
            dsimp only at h
            split at h
            · injection h with h
              exact ⟨_, h.symm, ⟨cb, csb, hschb, hcharb⟩, fun hs => hspecb hs,
                fun _ => hbs, fun r1 h1 => by cases h1⟩
            · split at h
              · injection h with h
                exact ⟨_, h.symm, ⟨cb, csb, hschb, hcharb⟩, fun hs => hspecb hs,
                  fun _ => hbs, fun r1 h1 => by cases h1⟩
              · split at h
                · injection h with h
                  exact ⟨_, h.symm, ⟨cb, csb, hschb, hcharb⟩, fun hs => hspecb hs,
                    fun _ => hbs, fun r1 h1 => by cases h1⟩
                · injection h with h
                  exact ⟨_, h.symm, ⟨cb, csb, hschb, hcharb⟩, fun hs => hspecb hs,
                    fun _ => hbs, fun r1 h1 => by cases h1⟩
      · cases h

/-- A serialised URL's characters: the scheme, a colon, then the rest. -/
theorem urlToString_data (r : UrlRec) :
    ∃ T, (urlToString r).data = r.scheme.data ++ ':' :: T := by
  have hcolon : (":" : String).data = [':'] := rfl
  refine ⟨(if r.special then "//" ++ r.host ++ r.path else r.path).data ++
    ((match r.query with | none => "" | some q => "?" ++ q).data ++
     (match r.fragment with | none => "" | some f => "#" ++ f).data), ?_⟩
  unfold urlToString
  simp [String.data_append, hcolon]

/-- The serialised URL does not begin with `pre` whenever `pre`'s first
character differs from the scheme's first character. -/
theorem jsStartsWith_scheme_false (r : UrlRec) (c : Char) (cs : List Char)
    (hs : r.scheme.data = Char.toLower c :: cs) (pre : String) (p : Char)
    (ps : List Char) (hpre : pre.data = p :: ps)
    (hne : (p == Char.toLower c) = false) :
    jsStartsWith (urlToString r) pre = false := by
  obtain ⟨T, hT⟩ := urlToString_data r
  unfold jsStartsWith
  rw [hT, hs, hpre]
  show List.isPrefixOf (p :: ps) (Char.toLower c :: (cs ++ ':' :: T)) = false
  simp [List.isPrefixOf, hne]

theorem schemeChar_toLower_ne_hash (c : Char) (h : isSchemeChar c = true) :
    ('#' == Char.toLower c) = false := by
  rw [beq_eq_false_iff_ne]
  intro heq
  have hc : c = '#' := toLower_fix c '#' (by left; decide) heq.symm
  rw [hc] at h
  exact absurd h (by decide)

/-- A special-scheme record never serialises to a `javascript:` URL. -/
theorem special_not_js (r : UrlRec) (hmem : r.scheme ∈ specialSchemes) :
    jsStartsWith (urlToString r) "javascript:" = false := by
  obtain ⟨T, hT⟩ := urlToString_data r
  unfold jsStartsWith
  rw [hT]
  simp only [specialSchemes, List.mem_cons, List.not_mem_nil, or_false] at hmem
  rcases hmem with h | h | h <;> rw [h] <;> rfl

theorem matchCiKeep_head (p : Char) (ps l : List Char) (r : List Char × List Char)
    (h : matchCiKeep (p :: ps) l = some r) :
    ∃ c rest, r.1 = c :: rest ∧ Char.toLower c = p := by
  cases l with
  | nil => cases h
  | cons c cs =>
    simp only [matchCiKeep] at h
    split at h
    · next hlow =>
      cases hm : matchCiKeep ps cs with
      | none => rw [hm] at h; cases h
      | some r2 =>
        rw [hm] at h
        simp only [Option.map_some', Option.some.injEq] at h
        subst h
        exact ⟨c, r2.1, rfl, hlow⟩
    · cases h

theorem matchUrlStart_head (l : List Char) (r : List Char × List Char)
    (h : matchUrlStart l = some r) :
    ∃ c rest, r.1 = c :: rest ∧
      (Char.toLower c = 'h' ∨ Char.toLower c = 'f' ∨ c = '/') := by
  unfold matchUrlStart at h
  cases h1 : matchCiKeep "https://".data l with
  | some r1 =>
    rw [h1] at h
    injection h with h
    subst h
    obtain ⟨c, rest, hr, hc⟩ := matchCiKeep_head 'h' _ l r1 h1
    exact ⟨c, rest, hr, Or.inl hc⟩
  | none =>
    rw [h1] at h
    cases h2 : matchCiKeep "http://".data l with
    | some r2 =>
      rw [h2] at h
      injection h with h
      subst h
      obtain ⟨c, rest, hr, hc⟩ := matchCiKeep_head 'h' _ l r2 h2
      exact ⟨c, rest, hr, Or.inl hc⟩
    | none =>
      rw [h2] at h
      cases h3 : matchCiKeep "ftp://".data l with
      | some r3 =>
        rw [h3] at h
        injection h with h
        subst h
        obtain ⟨c, rest, hr, hc⟩ := matchCiKeep_head 'f' _ l r3 h3
        exact ⟨c, rest, hr, Or.inr (Or.inl hc)⟩
      | none =>
        rw [h3] at h
        cases l with
        | nil => cases h
        | cons c0 rest0 =>
          dsimp only at h
          split at h
          · next hc0 =>
            injection h with h
            subst h
            exact ⟨c0, [], rfl, Or.inr (Or.inr hc0)⟩
          · cases h

theorem tryMatchHref_capture_head (l : List Char) (cap : String) (rem : List Char)
    (h : tryMatchHref l = some (cap, rem)) :
    ∃ c0 restC, cap.data = c0 :: restC ∧
      (Char.toLower c0 = 'h' ∨ Char.toLower c0 = 'f' ∨ c0 = '/') := by
  unfold tryMatchHref at h
  cases h1 : matchCi ['h', 'r', 'e', 'f', '='] l with
  | none => rw [h1] at h; cases h
  | some l1 =>
    rw [h1] at h
    cases l1 with
    | nil => cases h
    | cons q l2 =>
      dsimp only at h
      split at h
      · cases h2 : matchUrlStart l2 with
        | none => rw [h2] at h; cases h
        | some pr =>
          rw [h2] at h
          dsimp only at h
          split at h
          · cases h
          · obtain ⟨c, rest, hr, hc⟩ := matchUrlStart_head l2 pr h2
            cases hl4 : pr.2.drop (pr.2.takeWhile regexValueChar).length with
            | nil => rw [hl4] at h; cases h
            | cons c2 l5 =>
              rw [hl4] at h
              dsimp only at h
              split at h
              · injection h with h
                have hcap : String.mk (pr.1 ++ pr.2.takeWhile regexValueChar) = cap :=
                  congrArg Prod.fst h
                refine ⟨c, rest ++ pr.2.takeWhile regexValueChar, ?_, hc⟩
                rw [← hcap, hr]
                simp
              · cases h
      · cases h

theorem regexHrefMatchesF_head : ∀ (fuel : Nat) (l : List Char) (s : String),
    s ∈ regexHrefMatchesF fuel l →
    ∃ c0 restC, s.data = c0 :: restC ∧
      (Char.toLower c0 = 'h' ∨ Char.toLower c0 = 'f' ∨ c0 = '/') := by
  intro fuel
  induction fuel with
  | zero => intro l s hs; simp [regexHrefMatchesF] at hs
  | succ fuel ih =>
    intro l s hs
    match l with
    | [] => simp [regexHrefMatchesF] at hs
    | c :: rest =>
      rw [regexHrefMatchesF] at hs
      cases hm : tryMatchHref (c :: rest) with
      | some r =>
        rw [hm] at hs
        dsimp only at hs
        rcases List.mem_cons.mp hs with h | h
        · subst h
          exact tryMatchHref_capture_head _ _ _ (by rw [hm])
        · exact ih r.2 s h
      | none =>
        rw [hm] at hs
        dsimp only at hs
        exact ih rest s hs

/-- Every extracted link is the resolution of a target that passed the
source's filter; fallback-path links additionally come from the regex. -/
theorem extractLinks_mem (dom : Bool) (html base u : String)
    (h : u ∈ extractLinks dom html base) :
    ∃ href, keepHref href = true ∧ resolveUrl href base = some u ∧
      (dom = false → href ∈ regexHrefMatches html.data) := by
  unfold extractLinks at h
  cases dom with
  | true =>
    rw [if_pos rfl] at h
    obtain ⟨a, _, hfa⟩ := List.mem_filterMap.mp h
    cases a with
    | none => cases hfa
    | some href =>
      dsimp only at hfa
      split at hfa
      · exact ⟨href, by assumption, hfa, fun hf => by cases hf⟩
      · cases hfa
  | false =>
    rw [if_neg (by simp)] at h
    obtain ⟨href, ha, hfa⟩ := List.mem_filterMap.mp h
    try dsimp only at hfa
    split at hfa
    · exact ⟨href, by assumption, hfa, fun _ => ha⟩
    · cases hfa

/-- C7 counterexample: the structural path returns a script-pseudo URL when
the target's `javascript:` prefix differs in case — `startsWith` at
`linkChecker.ts:223` is case-sensitive while the URL parser lower-cases the
scheme. -/
theorem c7_counterexample :
    extractLinks true "<a href=\x22JavaScript:x\x22>y</a>" "http://e.com/" =
      ["javascript:x"] ∧
    jsStartsWith "javascript:x" "javascript:" = true := by
  exact ⟨by decide, by decide⟩

/-- C7 (amended): `extractLinks` never returns a fragment-only URL on
either path, every returned URL is the resolution of a target that is
non-empty and does not begin with the exact lowercase strings
`javascript:` or `#`, and on the textual-fallback path no returned URL is a
script-pseudo URL at all; but (per the counterexample) a structural-path
target whose `javascript:` prefix differs in case IS returned. -/
theorem c7_no_fragment_or_script (dom : Bool) (html base u : String)
    (h : u ∈ extractLinks dom html base) :
    jsStartsWith u "#" = false ∧
    (∃ href, keepHref href = true ∧ resolveUrl href base = some u) ∧
    (dom = false → jsStartsWith u "javascript:" = false) := by
  obtain ⟨href, hk, hres, hreg⟩ := extractLinks_mem dom html base u h
  obtain ⟨r, hu, ⟨c, cs, hsch, hchar⟩, hspec, hrel, habs⟩ := resolveUrl_shape href base u hres
  subst hu
  refine ⟨?_, ⟨href, hk, hres⟩, ?_⟩
  · exact jsStartsWith_scheme_false r c cs hsch "#" '#' [] rfl
      (schemeChar_toLower_ne_hash c hchar)
  · intro hdom
    have hmem := hreg hdom
    obtain ⟨c0, restC, hhd, hc0⟩ := regexHrefMatchesF_head html.data.length html.data href hmem
    cases hph : parseUrl href with
    | none =>
      exact special_not_js r (hspec (hrel hph))
    | some r0 =>
      have hr := habs r0 hph
      subst hr
      obtain ⟨c1, cs1, hhd1, hsch1, _, _⟩ := parseUrl_shape href r hph
      have hc1 : c1 = c0 := by
        rw [hhd] at hhd1
        injection hhd1 with h2
        exact h2.symm
      rw [hc1] at hsch1
      refine jsStartsWith_scheme_false r c0 cs1 hsch1 "javascript:" 'j' _ rfl ?_
      rcases hc0 with hl | hl | hl
      · rw [hl]; decide
      · rw [hl]; decide
      · rw [hl]; decide

/-- Witness for the amended C7: a structural-path link and a fallback-path
link at concrete inputs. -/
theorem c7_no_fragment_or_script_witness :
    (jsStartsWith "http://a.com/x" "#" = false ∧
      (∃ href, keepHref href = true ∧
        resolveUrl href "http://e.com/" = some "http://a.com/x") ∧
      (true = false → jsStartsWith "http://a.com/x" "javascript:" = false)) ∧
    (jsStartsWith "http://e.com/y" "#" = false ∧
      (∃ href, keepHref href = true ∧
        resolveUrl href "http://e.com/" = some "http://e.com/y") ∧
      (false = false → jsStartsWith "http://e.com/y" "javascript:" = false)) :=
  ⟨c7_no_fragment_or_script true "<a href=\x22http://a.com/x\x22>l</a>" "http://e.com/"
      "http://a.com/x" (by decide),
   c7_no_fragment_or_script false "z href=\x22/y\x22 w" "http://e.com/"
      "http://e.com/y" (by decide)⟩

/-! ### C8: comparing the structural and textual extraction paths -/

/-- `splitAtChar` passes over characters that fail the predicate and stops
exactly at the first hit. -/
theorem splitAtChar_no_hit (p : Char → Bool) :
    ∀ (A : List Char) (b : Char) (B : List Char),
    (∀ x ∈ A, p x = false) → p b = true →
    splitAtChar p (A ++ b :: B) = (A, b :: B) := by
  intro A
  induction A with
  | nil =>
    intro b B _ hb
    simp only [List.nil_append, splitAtChar, hb, if_true]
  | cons a A ih =>
    intro b B hA hb
    have ha : p a = false := hA a (List.mem_cons_self _ _)
    simp only [List.cons_append, splitAtChar, ha, Bool.false_eq_true, if_false,
      List.append_eq]
    rw [ih b B (fun x hx => hA x (List.mem_cons_of_mem _ hx)) hb]

/-- `takeWhile` over a satisfying block stops exactly at the first
failing character. -/
theorem takeWhile_block (p : Char → Bool) :
    ∀ (A : List Char) (b : Char) (B : List Char),
    A.all p = true → p b = false →
    (A ++ b :: B).takeWhile p = A := by
  intro A
  induction A with
  | nil =>
    intro b B _ hb
    simp [List.takeWhile, hb]
  | cons a A ih =>
    intro b B hA hb
    simp only [List.all_cons, Bool.and_eq_true] at hA
    simp only [List.cons_append, List.takeWhile, hA.1, List.append_eq]
    rw [ih b B hA.2 hb]

/-- Skipping one character of the anchor scanner. -/
theorem anchorHrefs_skip (c : Char) (rest : List Char)
    (hc : (c = '<' && anchorTagAt rest) = false) :
    anchorHrefs (c :: rest) = anchorHrefs rest := by
  rw [anchorHrefs_cons, hc]
  simp

/-- Skipping one character of the regex scanner. -/
theorem regexHrefMatches_skip (c : Char) (rest : List Char)
    (h : tryMatchHref (c :: rest) = none) :
    regexHrefMatches (c :: rest) = regexHrefMatches rest := by
  rw [regexHrefMatches_cons, h]

/-- The common-anchor HTML fragment: `<a href="t">x</a>`. -/
def mkAnchor (t : String) : String := "<a href=\x22" ++ t ++ "\x22>x</a>"

def mkAnchors : List String → String
  | [] => ""
  | t :: ts => mkAnchor t ++ mkAnchors ts

/-- The characters of one anchor fragment, exposed for scanning. -/
def mkAnchorChars (t : List Char) : List Char :=
  '<' :: 'a' :: ' ' :: 'h' :: 'r' :: 'e' :: 'f' :: '=' :: '"' ::
    (t ++ '"' :: '>' :: 'x' :: '<' :: '/' :: 'a' :: '>' :: [])

theorem mkAnchor_data (t : String) : (mkAnchor t).data = mkAnchorChars t.data := by
  cases t with
  | mk d => rfl

theorem mkAnchors_data (t : String) (ts : List String) :
    (mkAnchors (t :: ts)).data = mkAnchorChars t.data ++ (mkAnchors ts).data := by
  show (mkAnchor t ++ mkAnchors ts).data = _
  rw [String.data_append, mkAnchor_data]

theorem regexValueChar_spec (x : Char) (h : regexValueChar x = true) :
    (x = '"' : Bool) = false ∧ (x = '\'' : Bool) = false ∧ (x = '>' : Bool) = false := by
  simp only [regexValueChar, isQuoteChar, Bool.not_eq_true', Bool.or_eq_false_iff,
    decide_eq_false_iff_not] at h
  simp only [decide_eq_false_iff_not]
  exact ⟨h.1.1.1, h.1.1.2, h.1.2⟩

/-- The anchor scanner on one well-formed anchor: it finds exactly the
quoted target and resumes after the closing tag. -/
theorem anchorHrefs_mkAnchor (t rest : List Char)
    (hplain : t.all regexValueChar = true) :
    anchorHrefs (mkAnchorChars t ++ rest) =
      some (String.mk t) :: anchorHrefs rest := by
  have hspec : ∀ x ∈ t, (x = '"' : Bool) = false ∧ (x = '\'' : Bool) = false ∧
      (x = '>' : Bool) = false :=
    fun x hx => regexValueChar_spec x (List.all_eq_true.mp hplain x hx)
  have hsplit : mkAnchorChars t ++ rest =
      '<' :: 'a' :: ' ' :: 'h' :: 'r' :: 'e' :: 'f' :: '=' :: '"' ::
        (t ++ '"' :: '>' :: 'x' :: '<' :: '/' :: 'a' :: '>' :: rest) := by
    simp [mkAnchorChars]
  have harr : (' ' :: 'h' :: 'r' :: 'e' :: 'f' :: '=' :: '"' ::
      (t ++ '"' :: '>' :: 'x' :: '<' :: '/' :: 'a' :: '>' :: rest) : List Char) =
      (' ' :: 'h' :: 'r' :: 'e' :: 'f' :: '=' :: '"' :: (t ++ ['"'])) ++
        ('>' :: 'x' :: '<' :: '/' :: 'a' :: '>' :: rest) := by
    simp
  have hA : ∀ x ∈ (' ' :: 'h' :: 'r' :: 'e' :: 'f' :: '=' :: '"' :: (t ++ ['"'])
      : List Char), (x = '>' : Bool) = false := by
    intro x hx
    simp only [List.mem_cons, List.mem_append, List.mem_singleton, List.not_mem_nil,
      or_false] at hx
    rcases hx with rfl | rfl | rfl | rfl | rfl | rfl | rfl | hx | rfl
    · decide
    · decide
    · decide
    · decide
    · decide
    · decide
    · decide
    · exact (hspec x hx).2.2
    · decide
  have hsp := splitAtChar_no_hit (fun c => c = '>')
    (' ' :: 'h' :: 'r' :: 'e' :: 'f' :: '=' :: '"' :: (t ++ ['"'])) '>'
    ('x' :: '<' :: '/' :: 'a' :: '>' :: rest) hA rfl
  have hqA : ∀ x ∈ t, ((fun c2 => (c2 = '"' : Bool)) x) = false :=
    fun x hx => (hspec x hx).1
  have hq := splitAtChar_no_hit (fun c2 => c2 = '"') t '"' [] hqA rfl
  rw [hsplit, anchorHrefs_cons, if_pos (by rfl)]
  simp only [List.tail_cons]
  rw [harr]
  unfold splitTag
  rw [hsp]
  dsimp only
  have hf : findHrefAttr (' ' :: 'h' :: 'r' :: 'e' :: 'f' :: '=' :: '"' :: (t ++ ['"'])) =
      some (String.mk t) := by
    show (match (splitAtChar (fun c2 => c2 = '"') (t ++ ['"'])).2 with
          | [] => none
          | _ :: _ => some (String.mk (splitAtChar (fun c2 => c2 = '"') (t ++ ['"'])).1)) =
        some (String.mk t)
    rw [hq]
  rw [hf]
  rw [anchorHrefs_skip 'x' _ (by rfl), anchorHrefs_skip '<' _ (by rfl),
      anchorHrefs_skip '/' _ (by rfl), anchorHrefs_skip 'a' _ (by rfl),
      anchorHrefs_skip '>' _ (by rfl)]

/-- The class of link targets on which the two extraction paths agree:
targets that begin with one of the exact lowercase alternation prefixes of
the fallback regex, followed by at least one character. -/
def PrefixShape (l : List Char) : Prop :=
  (∃ extra, extra ≠ [] ∧ l = "http://".data ++ extra) ∨
  (∃ extra, extra ≠ [] ∧ l = "https://".data ++ extra) ∨
  (∃ extra, extra ≠ [] ∧ l = "ftp://".data ++ extra) ∨
  (∃ extra, extra ≠ [] ∧ l = '/' :: extra)

/-- The tail of a successful regex match: the value block ends exactly at
the closing quote. -/
theorem tryMatchHref_tail (pfx e R : List Char)
    (hne : e ≠ []) (hex : e.all regexValueChar = true) :
    (if ((e ++ '"' :: R).takeWhile regexValueChar).isEmpty then none
     else match (e ++ '"' :: R).drop ((e ++ '"' :: R).takeWhile regexValueChar).length with
       | [] => none
       | c :: l5 =>
         if isQuoteChar c then
           some (String.mk (pfx ++ (e ++ '"' :: R).takeWhile regexValueChar), l5)
         else none) = some (String.mk (pfx ++ e), R) := by
  cases e with
  | nil => exact absurd rfl hne
  | cons x xs =>
    rw [takeWhile_block regexValueChar (x :: xs) '"' R hex (by decide), List.drop_left]
    rfl

/-- Matching the literal `href=` always consumes exactly those five
characters. -/
theorem matchCi_hrefeq (L : List Char) :
    matchCi ['h', 'r', 'e', 'f', '='] ('h' :: 'r' :: 'e' :: 'f' :: '=' :: L) = some L := by
  simp [matchCi]

/-- A pattern of case-fixed characters matches itself as a prefix. -/
theorem matchCiKeep_lower (p : List Char) : ∀ l : List Char,
    (p.all fun c => c.toLower = c) = true →
    matchCiKeep p (p ++ l) = some (p, l) := by
  induction p with
  | nil => intro l _; simp [matchCiKeep]
  | cons c p ih =>
    intro l h
    simp only [List.all_cons, Bool.and_eq_true] at h
    have hc : c.toLower = c := of_decide_eq_true h.1
    simp [matchCiKeep, hc, ih l h.2]

theorem matchUrlStart_http (e : List Char) :
    matchUrlStart ("http://".data ++ e) = some ("http://".data, e) := by
  unfold matchUrlStart
  rw [show matchCiKeep "https://".data ("http://".data ++ e) = none from rfl]
  rw [matchCiKeep_lower "http://".data e (by decide)]

theorem matchUrlStart_https (e : List Char) :
    matchUrlStart ("https://".data ++ e) = some ("https://".data, e) := by
  unfold matchUrlStart
  rw [matchCiKeep_lower "https://".data e (by decide)]

theorem matchUrlStart_ftp (e : List Char) :
    matchUrlStart ("ftp://".data ++ e) = some ("ftp://".data, e) := by
  unfold matchUrlStart
  rw [show matchCiKeep "https://".data ("ftp://".data ++ e) = none from rfl]
  rw [show matchCiKeep "http://".data ("ftp://".data ++ e) = none from rfl]
  rw [matchCiKeep_lower "ftp://".data e (by decide)]

/-- The regex matches each well-formed anchor header exactly, capturing the
whole target, when the target is in the common class. -/
theorem tryMatchHref_header (t R : List Char)
    (hplain : t.all regexValueChar = true) (hshape : PrefixShape t) :
    tryMatchHref ('h' :: 'r' :: 'e' :: 'f' :: '=' :: '"' :: (t ++ '"' :: R)) =
      some (String.mk t, R) := by
  rcases hshape with ⟨e, hne, hte⟩ | ⟨e, hne, hte⟩ | ⟨e, hne, hte⟩ | ⟨e, hne, hte⟩ <;>
    subst hte
  · have hex : e.all regexValueChar = true := by
      simp only [List.all_append, Bool.and_eq_true] at hplain
      exact hplain.2
    rw [List.append_assoc]
    unfold tryMatchHref
    rw [matchCi_hrefeq]
    dsimp only
    rw [if_pos (show isQuoteChar '"' = true from rfl)]
    rw [matchUrlStart_http (e ++ '"' :: R)]
    dsimp only
    exact tryMatchHref_tail "http://".data e R hne hex
  · have hex : e.all regexValueChar = true := by
      simp only [List.all_append, Bool.and_eq_true] at hplain
      exact hplain.2
    rw [List.append_assoc]
    unfold tryMatchHref
    rw [matchCi_hrefeq]
    dsimp only
    rw [if_pos (show isQuoteChar '"' = true from rfl)]
    rw [matchUrlStart_https (e ++ '"' :: R)]
    dsimp only
    exact tryMatchHref_tail "https://".data e R hne hex
  · have hex : e.all regexValueChar = true := by
      simp only [List.all_append, Bool.and_eq_true] at hplain
      exact hplain.2
    rw [List.append_assoc]
    unfold tryMatchHref
    rw [matchCi_hrefeq]
    dsimp only
    rw [if_pos (show isQuoteChar '"' = true from rfl)]
    rw [matchUrlStart_ftp (e ++ '"' :: R)]
    dsimp only
    exact tryMatchHref_tail "ftp://".data e R hne hex
  · have hex : e.all regexValueChar = true := by
      simp only [List.all_cons, Bool.and_eq_true] at hplain
      exact hplain.2
    exact tryMatchHref_tail ['/'] e R hne hex

/-- The regex scanner on one well-formed anchor with a common-class target:
it reports exactly the target and resumes after the anchor. -/
theorem regexHrefMatches_mkAnchor (t rest : List Char)
    (hplain : t.all regexValueChar = true) (hshape : PrefixShape t) :
    regexHrefMatches (mkAnchorChars t ++ rest) =
      String.mk t :: regexHrefMatches rest := by
  have hsplit : mkAnchorChars t ++ rest =
      '<' :: 'a' :: ' ' :: 'h' :: 'r' :: 'e' :: 'f' :: '=' :: '"' ::
        (t ++ '"' :: '>' :: 'x' :: '<' :: '/' :: 'a' :: '>' :: rest) := by
    simp [mkAnchorChars]
  rw [hsplit]
  rw [regexHrefMatches_skip '<' _ (by rfl), regexHrefMatches_skip 'a' _ (by rfl),
      regexHrefMatches_skip ' ' _ (by rfl)]
  rw [regexHrefMatches_cons,
      tryMatchHref_header t ('>' :: 'x' :: '<' :: '/' :: 'a' :: '>' :: rest) hplain hshape]
  dsimp only
  rw [regexHrefMatches_skip '>' _ (by rfl), regexHrefMatches_skip 'x' _ (by rfl),
      regexHrefMatches_skip '<' _ (by rfl), regexHrefMatches_skip '/' _ (by rfl),
      regexHrefMatches_skip 'a' _ (by rfl), regexHrefMatches_skip '>' _ (by rfl)]

/-- C8 counterexample: on `<a href="about.html">x</a>` with base
`http://e.com/` the structural path returns the resolved relative link while
the textual fallback returns nothing, because the fallback regex only
accepts targets beginning `http://`, `https://`, `ftp://` or `/`. -/
theorem c8_counterexample :
    extractLinks true "<a href=\x22about.html\x22>x</a>" "http://e.com/" =
      ["http://e.com/about.html"] ∧
    extractLinks false "<a href=\x22about.html\x22>x</a>" "http://e.com/" = [] := by
  constructor
  · rfl
  · rfl

/-- C8 (amended): on documents made of well-formed anchors whose targets
consist of regex-safe characters and begin with one of the fallback regex's
exact lowercase prefixes (`http://`, `https://`, `ftp://` or `/`) followed
by at least one character, the structural (DOM) path and the textual
fallback path of `extractLinks` return identical link sequences. -/
theorem c8_common_class (base : String) : ∀ ts : List String,
    (∀ t ∈ ts, t.data.all regexValueChar = true ∧ PrefixShape t.data) →
    extractLinks true (mkAnchors ts) base = extractLinks false (mkAnchors ts) base := by
  intro ts
  induction ts with
  | nil => intro _; rfl
  | cons t ts ih =>
    intro h
    have ht := h t (List.mem_cons_self _ _)
    have hts : ∀ u ∈ ts, u.data.all regexValueChar = true ∧ PrefixShape u.data :=
      fun u hu => h u (List.mem_cons_of_mem _ hu)
    have ih2 : (anchorHrefs (mkAnchors ts).data).filterMap (fun h? =>
        match h? with
        | none => none
        | some href => if keepHref href then resolveUrl href base else none) =
      (regexHrefMatches (mkAnchors ts).data).filterMap (fun href =>
        if keepHref href then resolveUrl href base else none) := ih hts
    show (anchorHrefs (mkAnchors (t :: ts)).data).filterMap (fun h? =>
        match h? with
        | none => none
        | some href => if keepHref href then resolveUrl href base else none) =
      (regexHrefMatches (mkAnchors (t :: ts)).data).filterMap (fun href =>
        if keepHref href then resolveUrl href base else none)
    rw [mkAnchors_data t ts, anchorHrefs_mkAnchor t.data _ ht.1,
        regexHrefMatches_mkAnchor t.data _ ht.1 ht.2,
        List.filterMap_cons, List.filterMap_cons, ih2]

theorem c8_common_class_witness :
    (∀ t ∈ (["http://a.com/x", "/y"] : List String),
        t.data.all regexValueChar = true ∧ PrefixShape t.data) ∧
    extractLinks true (mkAnchors ["http://a.com/x", "/y"]) "http://e.com/" =
      extractLinks false (mkAnchors ["http://a.com/x", "/y"]) "http://e.com/" := by
  have h : ∀ t ∈ (["http://a.com/x", "/y"] : List String),
      t.data.all regexValueChar = true ∧ PrefixShape t.data := by
    intro t ht
    simp only [List.mem_cons, List.not_mem_nil, or_false] at ht
    rcases ht with rfl | rfl
    · exact ⟨by decide, Or.inl ⟨"a.com/x".data, by decide, by decide⟩⟩
    · exact ⟨by decide, Or.inr (Or.inr (Or.inr ⟨"y".data, by decide, by decide⟩))⟩
  exact ⟨h, c8_common_class "http://e.com/" ["http://a.com/x", "/y"] h⟩

end LinkScribe